import Mathlib

/- Verification of the sparse exponent-vector (ETuple) / PolyDict arithmetic
   and of the Flag / Pattern combinatorial-structure engine of this
   repository.  Definitions mirror the Cython sources; C int values are
   modelled as unbounded integers together with an explicit two's-complement
   wrap at 32 bits wherever the source performs C arithmetic, and Python
   exceptions are modelled with an explicit error monad. -/

set_option maxHeartbeats 1600000
set_option maxRecDepth 100000
set_option linter.unusedVariables false

/-- Errors raised by the modelled code (Python exception classes).  The
    overflow error carries the Python integer interpolated into its message. -/
inductive PyErr where
  | arithmeticError : PyErr
  | overflowError : Int → PyErr
  | zeroDivisionError : PyErr
  | typeError : PyErr
  | keyError : PyErr
  | valueError : PyErr
  | indexError : PyErr
  deriving DecidableEq, Repr

/-- Sparse exponent tuple: the logical length together with the interlaced
    (index, value) pairs of the nonzero entries, mirroring the C data array
    of the ETuple class. -/
structure ETuple where
  length : Nat
  data : List (Nat × Int)
  deriving DecidableEq, Repr

/-- Signed 32-bit range of a C int value. -/
def int32 (v : Int) : Prop := -(2^31) ≤ v ∧ v < 2^31

instance (v : Int) : Decidable (int32 v) := inferInstanceAs (Decidable (_ ∧ _))

/-- Indices strictly increasing starting from a lower bound, values nonzero
    and inside the signed 32-bit range: the representation invariant that the
    ETuple constructor establishes for its data array. -/
def pairsOK : Nat → List (Nat × Int) → Prop
  | _, [] => True
  | lo, (i, v) :: xs => lo ≤ i ∧ v ≠ 0 ∧ int32 v ∧ pairsOK (i+1) xs

instance instDecPairsOK : (lo : Nat) → (xs : List (Nat × Int)) → Decidable (pairsOK lo xs)
  | _, [] => .isTrue trivial
  | _, (i, _) :: xs =>
    haveI := instDecPairsOK (i+1) xs
    inferInstanceAs (Decidable (_ ∧ _ ∧ _ ∧ _))

/-- Full representation invariant of an ETuple. -/
def ETuple.valid (e : ETuple) : Prop :=
  pairsOK 0 e.data ∧ ∀ p ∈ e.data, p.1 < e.length

instance (e : ETuple) : Decidable e.valid :=
  inferInstanceAs (Decidable (_ ∧ _))

/-- Two's-complement wrap into the signed 32-bit range, modelling C int
    overflow behaviour. -/
def wrap32 (x : Int) : Int := (x + 2^31) % 2^32 - 2^31

/-- Exponent of the i-th variable (get_exp / __getitem__ of the source):
    scan the sparse data, return 0 once the sorted indices pass i. -/
def getExp : List (Nat × Int) → Nat → Int
  | [], _ => 0
  | (i, v) :: xs, j => if i = j then v else if j < i then 0 else getExp xs j

/-- Entry of an ETuple at a position (its conceptual dense component). -/
def ETuple.get (e : ETuple) (j : Nat) : Int := getExp e.data j

/-- Dense expansion of the sparse data (the __iter__ loop of the source):
    positions counted by the remaining fuel, the pointer walking the data. -/
def toDenseGo : List (Nat × Int) → Nat → Nat → List Int
  | _, _, 0 => []
  | [], i, fuel+1 => 0 :: toDenseGo [] (i+1) fuel
  | (j, v) :: xs, i, fuel+1 =>
    if j = i then v :: toDenseGo xs (i+1) fuel
    else 0 :: toDenseGo ((j, v) :: xs) (i+1) fuel

/-- Dense conceptual tuple of an ETuple (tuple(self) in the source). -/
def ETuple.toDense (e : ETuple) : List Int := toDenseGo e.data 0 e.length

/-- The dual iteration over two sparse data arrays (dual_etuple_iter):
    produces, in index order, one (index, exp1, exp2) triple per position at
    which at least one of the two vectors is nonzero. -/
def dualMerge : List (Nat × Int) → List (Nat × Int) → List (Nat × Int × Int)
  | [], [] => []
  | (i, v) :: xs, [] => (i, v, 0) :: dualMerge xs []
  | [], (j, w) :: ys => (j, 0, w) :: dualMerge [] ys
  | (i, v) :: xs, (j, w) :: ys =>
    if i = j then (i, v, w) :: dualMerge xs ys
    else if j < i then (j, 0, w) :: dualMerge ((i, v) :: xs) ys
    else (i, v, 0) :: dualMerge xs ((j, w) :: ys)
termination_by xs ys => xs.length + ys.length

/-- Body of the eadd loop: C-int sum with the source's overflow test, zero
    sums dropped from the result. -/
def eaddEntries : List (Nat × Int × Int) → Except PyErr (List (Nat × Int))
  | [] => .ok []
  | (i, e1, e2) :: rest =>
    let s := wrap32 (e1 + e2)
    if (0 < e2 ∧ s < e1) ∨ (e2 < 0 ∧ e1 < s) then
      .error (.overflowError (e1 + e2))
    else do
      let r ← eaddEntries rest
      pure (if s = 0 then r else (i, s) :: r)

/-- Vector addition (ETuple.eadd): ArithmeticError on length mismatch,
    OverflowError from the per-entry test. -/
def ETuple.eadd (a b : ETuple) : Except PyErr ETuple :=
  if a.length ≠ b.length then .error .arithmeticError
  else do
    let d ← eaddEntries (dualMerge a.data b.data)
    pure ⟨a.length, d⟩

/-- Body of the esub loop: C-int difference with the source's overflow test. -/
def esubEntries : List (Nat × Int × Int) → Except PyErr (List (Nat × Int))
  | [] => .ok []
  | (i, e1, e2) :: rest =>
    let d := wrap32 (e1 - e2)
    if (0 < e2 ∧ e1 < d) ∨ (e2 < 0 ∧ d < e1) then
      .error (.overflowError (e1 - e2))
    else do
      let r ← esubEntries rest
      pure (if d = 0 then r else (i, d) :: r)

/-- Vector subtraction (ETuple.esub). -/
def ETuple.esub (a b : ETuple) : Except PyErr ETuple :=
  if a.length ≠ b.length then .error .arithmeticError
  else do
    let d ← esubEntries (dualMerge a.data b.data)
    pure ⟨a.length, d⟩

/-- Body of the eadd_scaled loop: the second exponent is first multiplied by
    the scalar as a C int (exp2 *= scalar wraps silently), then the sum is
    checked exactly as in eadd. -/
def eaddScaledEntries (scalar : Int) : List (Nat × Int × Int) → Except PyErr (List (Nat × Int))
  | [] => .ok []
  | (i, e1, e2) :: rest =>
    let e2s := wrap32 (e2 * scalar)
    let s := wrap32 (e1 + e2s)
    if (0 < e2s ∧ s < e1) ∨ (e2s < 0 ∧ e1 < s) then
      .error (.overflowError (e1 + e2s))
    else do
      let r ← eaddScaledEntries scalar rest
      pure (if s = 0 then r else (i, s) :: r)

/-- Scaled vector addition (ETuple.eadd_scaled). -/
def ETuple.eaddScaled (a b : ETuple) (scalar : Int) : Except PyErr ETuple :=
  if a.length ≠ b.length then .error .arithmeticError
  else do
    let d ← eaddScaledEntries scalar (dualMerge a.data b.data)
    pure ⟨a.length, d⟩

/-- Body of the escalar_div loop: each stored value is divided with Cython's
    checked (cdivision=False) semantics on C ints, i.e. Python floor
    division, and at the one corner where the quotient leaves the 32-bit
    range (value -2^31 with divisor -1, the guard Cython generates as
    b == -1 and unary negation of a would overflow) the call never returns a
    value: OverflowError where the generated guard is compiled in, undefined
    behaviour (a hardware trap) otherwise, mapped here to the error outcome.
    Zero quotients are dropped from the sparse data. -/
def escalarDivEntries (n : Int) : List (Nat × Int) → Except PyErr (List (Nat × Int))
  | [] => .ok []
  | (i, v) :: xs =>
    if n = -1 ∧ v = -2147483648 then .error (.overflowError (Int.fdiv v n))
    else (escalarDivEntries n xs).map
      (fun r => if Int.fdiv v n = 0 then r else (i, Int.fdiv v n) :: r)

/-- Scalar division (ETuple.escalar_div): ZeroDivisionError when n is 0. -/
def ETuple.escalarDiv (e : ETuple) (n : Int) : Except PyErr ETuple :=
  if n = 0 then .error .zeroDivisionError
  else (escalarDivEntries n e.data).map (fun d => ⟨e.length, d⟩)

/-- The Py_LT branch of ETuple.__richcmp__: a single cursor walks both
    sparse arrays; falls back to comparing the lengths. -/
def richLtLoop : List (Nat × Int) → List (Nat × Int) → Nat → Nat → Bool
  | (i, v) :: xs, (j, w) :: ys, l1, l2 =>
    if i < j then decide (v < 0)
    else if j < i then decide (0 < w)
    else if v ≠ w then decide (v < w)
    else richLtLoop xs ys l1 l2
  | (_, v) :: _, [], _, _ => decide (v < 0)
  | [], (_, w) :: _, _, _ => decide (0 < w)
  | [], [], l1, l2 => decide (l1 < l2)

/-- The Py_GT branch of ETuple.__richcmp__.  Note that its final fallback
    compares the lengths with the same strict less-than as the Py_LT branch. -/
def richGtLoop : List (Nat × Int) → List (Nat × Int) → Nat → Nat → Bool
  | (i, v) :: xs, (j, w) :: ys, l1, l2 =>
    if i < j then decide (0 < v)
    else if j < i then decide (w < 0)
    else if v ≠ w then decide (w < v)
    else richGtLoop xs ys l1 l2
  | (_, v) :: _, [], _, _ => decide (0 < v)
  | [], (_, w) :: _, _, _ => decide (w < 0)
  | [], [], l1, l2 => decide (l1 < l2)

/-- ETuple strict less-than (__richcmp__ with Py_LT). -/
def ETuple.lt (a b : ETuple) : Bool := richLtLoop a.data b.data a.length b.length

/-- ETuple strict greater-than (__richcmp__ with Py_GT). -/
def ETuple.gt (a b : ETuple) : Bool := richGtLoop a.data b.data a.length b.length

/-- ETuple equality (__richcmp__ with Py_EQ): nonzero counts, interlaced
    data and lengths all agree, i.e. data lists and lengths are equal. -/
def ETuple.eqb (a b : ETuple) : Bool := decide (a.data = b.data ∧ a.length = b.length)

/-- Python tuple strict lexicographic comparison on integer tuples: first
    difference decides, an equal proper prefix is smaller. -/
def pyTupleLt : List Int → List Int → Bool
  | [], [] => false
  | [], _ :: _ => true
  | _ :: _, [] => false
  | a :: xs, b :: ys => if a < b then true else if b < a then false else pyTupleLt xs ys

/-- Python tuple non-strict comparison. -/
def pyTupleLe (x y : List Int) : Bool := pyTupleLt x y || decide (x = y)

/-- ETuple non-strict less-than (__richcmp__ with Py_LE converts both sides
    to dense tuples). -/
def ETuple.le (a b : ETuple) : Bool := pyTupleLe a.toDense b.toDense

/-- ETuple non-strict greater-than (__richcmp__ with Py_GE via dense tuples). -/
def ETuple.ge (a b : ETuple) : Bool := pyTupleLe b.toDense a.toDense

/-- ETuple inequality (__richcmp__ with Py_NE via dense tuples). -/
def ETuple.neb (a b : ETuple) : Bool := decide (a.toDense ≠ b.toDense)

/-- PolyDict: mapping from exponent tuples to integer coefficients, kept in
    Python dict insertion order. -/
structure PolyDict where
  repn : List (ETuple × Int)
  deriving DecidableEq, Repr

/-- PyDict_GetItem / PyDict_SetItem accumulation used by PolyDict.__mul__:
    update an existing key in place, append a new key at the end. -/
def dictAddCoeff : List (ETuple × Int) → ETuple → Int → List (ETuple × Int)
  | [], k, c => [(k, c)]
  | (k2, c2) :: rest, k, c =>
    if k2 = k then (k2, c2 + c) :: rest else (k2, c2) :: dictAddCoeff rest k c

/-- PolyDict.__mul__: returns the empty operand itself when one side has an
    empty mapping, otherwise accumulates pairwise products, skipping zero
    coefficient products. -/
def PolyDict.mul (f g : PolyDict) : Except PyErr PolyDict :=
  if f.repn = [] then .ok f
  else if g.repn = [] then .ok g
  else do
    let d ← f.repn.foldlM (fun acc p0 =>
      g.repn.foldlM (fun acc2 p1 => do
        let e ← ETuple.eadd p0.1 p1.1
        let c := p0.2 * p1.2
        pure (if c = 0 then acc2 else dictAddCoeff acc2 e c)) acc) []
    pure ⟨d⟩

/-- Strictly increasing indices alone (no constraint on the values). -/
def keysFrom : Nat → List (Nat × Int) → Prop
  | _, [] => True
  | lo, (i, _) :: xs => lo ≤ i ∧ keysFrom (i+1) xs

instance instDecKeysFrom : (lo : Nat) → (xs : List (Nat × Int)) → Decidable (keysFrom lo xs)
  | _, [] => .isTrue trivial
  | _, (i, _) :: xs =>
    haveI := instDecKeysFrom (i+1) xs
    inferInstanceAs (Decidable (_ ∧ _))

/- Combinatorial flag engine (flag.pyx): relational structures with a
   distinguished type, their canonical certificates, patterns, and the
   structure generator. -/

namespace Flags

/-- Signature entry of one relation: arity, order-sensitivity and symmetry
    group id (provided by the owning theory). -/
structure RelInfo where
  arity : Nat
  ordered : Bool
  group : Nat
  deriving DecidableEq, Repr

/-- Modelled from the spec: the owning CombinatorialTheory (code outside
    src), reduced to the read-only signature the flag engine consumes;
    theories compare by value. -/
structure Theory where
  signature : List (String × RelInfo)
  deriving DecidableEq, Repr

/-- Relation blocks: mapping from relation name to its list of point tuples,
    in Python dict insertion order. -/
abbrev Blocks := List (String × List (List Nat))

/-- A Flag: point count, distinguished ordered ftype points and the
    standardized relation blocks. -/
structure Flag where
  theory : Theory
  n : Nat
  ftypePoints : List Nat
  blocks : Blocks
  deriving DecidableEq, Repr

/-- A Pattern: like a Flag but allowing companion optional blocks among its
    block keys. -/
structure Pattern where
  theory : Theory
  n : Nat
  ftypePoints : List Nat
  blocks : Blocks
  deriving DecidableEq, Repr

/-- Python dict lookup: KeyError when the key is missing. -/
def dget {α : Type} : List (String × α) → String → Except PyErr α
  | [], _ => .error .keyError
  | (k, v) :: rest, key => if k = key then .ok v else dget rest key

/-- Membership test on dict keys (the Python in operator). -/
def dhas {α : Type} : List (String × α) → String → Bool
  | [], _ => false
  | (k, _) :: rest, key => if k = key then true else dhas rest key

/-- Python list.index on point lists; total here because every call site
    first guarantees membership, exactly as the source does. -/
def listIndex : List Nat → Nat → Nat
  | [], _ => 0
  | x :: xs, y => if x = y then 0 else listIndex xs y + 1

/-- Short-circuiting monadic conjunction over a list (a for loop returning
    False early). -/
def listAllM {α : Type} (f : α → Except PyErr Bool) : List α → Except PyErr Bool
  | [] => .ok true
  | x :: xs => do
    let b ← f x
    if b then listAllM f xs else pure false

/-- Short-circuiting monadic disjunction over a list (a for loop returning
    True early). -/
def listAnyM {α : Type} (f : α → Except PyErr Bool) : List α → Except PyErr Bool
  | [] => .ok false
  | x :: xs => do
    let b ← f x
    if b then pure true else listAnyM f xs

/-- Python < on point tuples. -/
def natListLt : List Nat → List Nat → Bool
  | [], [] => false
  | [], _ :: _ => true
  | _ :: _, [] => false
  | a :: xs, b :: ys => if a < b then true else if b < a then false else natListLt xs ys

/-- Stable sorted insertion, modelling Python sorted. -/
def insSorted {α : Type} (lt : α → α → Bool) (x : α) : List α → List α
  | [] => [x]
  | y :: ys => if lt x y then x :: y :: ys else y :: insSorted lt x ys

/-- Python sorted with a boolean strict order. -/
def sortPy {α : Type} (lt : α → α → Bool) (l : List α) : List α :=
  l.foldl (fun acc x => insSorted lt x acc) []

/-- Ascending sort of a point tuple. -/
def sortNat (l : List Nat) : List Nat := sortPy (fun a b => decide (a < b)) l

/-- Each element together with the rest of the list, in order. -/
def selections {α : Type} : List α → List (α × List α)
  | [] => []
  | x :: xs => (x, xs) :: (selections xs).map (fun p => (p.1, x :: p.2))

/-- itertools.permutations(l, k): the k-permutations in itertools order. -/
def permsK {α : Type} : Nat → List α → List (List α)
  | 0, _ => [[]]
  | k+1, l => (selections l).flatMap (fun p => (permsK k p.2).map (fun q => p.1 :: q))

/-- itertools.permutations(l). -/
def permutationsPy {α : Type} (l : List α) : List (List α) := permsK l.length l

/-- itertools.combinations(l, k). -/
def combinationsPy {α : Type} : List α → Nat → List (List α)
  | _, 0 => [[]]
  | [], _+1 => []
  | x :: xs, k+1 => (combinationsPy xs k).map (fun q => x :: q) ++ combinationsPy xs (k+1)

/-- itertools.product over a list of choice lists. -/
def productPy {α : Type} : List (List α) → List (List α)
  | [] => [[]]
  | l :: rest => l.flatMap (fun x => (productPy rest).map (fun q => x :: q))

/-- Sorting of one relation block in _standardize_blocks: inner tuples sorted
    first when the relation is unordered. -/
def standardizeOne (info : RelInfo) (blk : List (List Nat)) : List (List Nat) :=
  if info.ordered then sortPy natListLt blk
  else sortPy natListLt (blk.map sortNat)

/-- _standardize_blocks: walk the given blocks; without the pattern switch
    every key is looked up in the signature directly (KeyError for a
    companion optional key), with it keys missing from the signature have the
    two-character optional suffix stripped first. -/
def standardizeBlocks (params : Blocks) (signature : List (String × RelInfo))
    (pattern : Bool) : Except PyErr Blocks :=
  params.mapM (fun p => do
    let key := if pattern ∧ ¬ (dhas signature p.1) then p.1.dropRight 2 else p.1
    let info ← dget signature key
    pure (p.1, standardizeOne info p.2))

/-- Flag.__init__ (modulo the Element parent plumbing): standardize the
    blocks against the theory's signature. -/
def Flag.make (theory : Theory) (n : Nat) (ftype : List Nat) (params : Blocks) :
    Except PyErr Flag := do
  let blocks ← standardizeBlocks params theory.signature false
  pure ⟨theory, n, ftype, blocks⟩

/-- Pattern.__init__: the source passes pattern := False to
    _standardize_blocks here as well, so optional keys are rejected with
    KeyError at construction. -/
def Pattern.make (theory : Theory) (n : Nat) (ftype : List Nat) (params : Blocks) :
    Except PyErr Pattern := do
  let blocks ← standardizeBlocks params theory.signature false
  pure ⟨theory, n, ftype, blocks⟩

/-- Modelled from the spec: CombinatorialTheory.empty (code outside src),
    the empty structure of the theory on zero points with empty blocks. -/
def Theory.empty (t : Theory) : Flag :=
  ⟨t, 0, [], t.signature.map (fun p => (p.1, []))⟩

/-- Flag.not_ftype_points. -/
def Flag.notFtypePoints (f : Flag) : List Nat :=
  (List.range f.n).filter (fun i => decide (i ∉ f.ftypePoints))

/-- _subblock_helper: keep the tuples fully inside the point list,
    relabelled by position in it. -/
def subblockHelper (points : List Nat) (block : List (List Nat)) : List (List Nat) :=
  (block.filter (fun t => t.all (fun y => points.contains y))).map
    (fun t => t.map (fun y => listIndex points y))

/-- Flag.subflag.  The points argument is optional; passing None evaluates
    len(None) on the first line and raises TypeError — the None-default
    branch below it in the source is unreachable dead code. -/
def Flag.subflag (f : Flag) (points : Option (List Nat))
    (ftypePoints : Option (List Nat)) : Except PyErr Flag :=
  match points with
  | none => .error .typeError
  | some pts0 =>
    if pts0.length = 0 then .ok (Theory.empty f.theory)
    else
      let ftp := ftypePoints.getD f.ftypePoints
      let pts := pts0 ++ ftp.filter (fun i => decide (i ∉ pts0))
      if pts = List.range f.n ∧ ftp = f.ftypePoints then .ok f
      else do
        let blocks := f.blocks.map (fun p => (p.1, subblockHelper pts p.2))
        let newFtp := ftp.map (fun i => listIndex pts i)
        Flag.make f.theory pts.length newFtp blocks

/-- Flag.ftype: the is_ftype shortcut in the source is immediately
    overwritten by the subflag([]) assignment, so the ftype of every flag is
    subflag on the empty point list, i.e. the theory's empty structure. -/
def Flag.ftype (f : Flag) : Except PyErr Flag := f.subflag (some []) none

/-- Flag.strong_equal: same theory, identical type points and identical
    standardized blocks. -/
def Flag.strongEqual (f g : Flag) : Bool :=
  decide (f.theory = g.theory) && decide (f.ftypePoints = g.ftypePoints)
    && decide (f.blocks = g.blocks)

/-- Append a value to the list stored under a key, creating the key at the
    end on first use (Python dict-of-lists accumulation). -/
def dictAppend {β : Type} : List (Nat × List β) → Nat → β → List (Nat × List β)
  | [], g, r => [(g, [r])]
  | (g2, rs) :: rest, g, r =>
    if g2 = g then (g2, rs ++ [r]) :: rest else (g2, rs) :: dictAppend rest g r

/-- Python dict insert-or-update for tuple-keyed vertex tables: an existing
    key keeps its position, its value is replaced. -/
def assocUpdate : List (List Nat × Nat) → List Nat → Nat → List (List Nat × Nat)
  | [], k, v => [(k, v)]
  | (k2, v2) :: rest, k, v =>
    if k2 = k then (k2, v) :: rest else (k2, v2) :: assocUpdate rest k v

/-- Vertex and group tables of _symmetry_graph. -/
structure SymTables where
  nextVertex : Nat
  unary : List (String × Nat)
  tupleVerts : List (String × List (List Nat × Nat))
  groupVerts : List (String × Nat)
  groups : List (Nat × List String)
  deriving Repr

/-- First pass of _symmetry_graph: walk the signature in order, allocating a
    vertex per occurrence of every relation of arity at least 2 (one shared
    vertex for an arity-1 relation), a group vertex per relation, and the
    group table. -/
def symTables (n : Nat) (blocks : Blocks) (signature : List (String × RelInfo)) :
    Except PyErr SymTables :=
  signature.foldlM (fun st p => do
    let relName := p.1
    let info := p.2
    let st ←
      if info.arity = 1 then
        pure { st with unary := st.unary ++ [(relName, st.nextVertex)],
                       nextVertex := st.nextVertex + 1 }
      else do
        let occ ← dget blocks relName
        let fin := occ.foldl (fun q t => (assocUpdate q.1 t q.2, q.2 + 1))
          (([] : List (List Nat × Nat)), st.nextVertex)
        pure { st with tupleVerts := st.tupleVerts ++ [(relName, fin.1)],
                       nextVertex := fin.2 }
    pure { st with groups := dictAppend st.groups info.group relName,
                   groupVerts := st.groupVerts ++ [(relName, st.nextVertex)],
                   nextVertex := st.nextVertex + 1 })
    ⟨n, [], [], [], []⟩

/-- Partition construction of _symmetry_graph: layer-0 point classes (each
    ftype point its own class unless weak), then per group the layer-2 class
    of group vertices and the layer-1 class of relation-instance vertices. -/
def symPartition (f : Flag) (weak : Bool) (st : SymTables) :
    Except PyErr (List (List Nat)) := do
  let base := if weak then [f.ftypePoints, f.notFtypePoints]
    else f.ftypePoints.map (fun i => [i]) ++ [f.notFtypePoints]
  st.groups.foldlM (fun part g => do
    let l2 ← g.2.mapM (fun r => dget st.groupVerts r)
    let l1parts ← g.2.mapM (fun r =>
      if dhas st.unary r then do
        let v ← dget st.unary r
        pure [v]
      else do
        let tv ← dget st.tupleVerts r
        pure (tv.map (fun q => q.2)))
    pure (part ++ [l2, l1parts.flatten]))
    base

/-- Out/in endpoint lists, label count and optional labels of the symmetry
    graph edges. -/
structure EdgeData where
  vout : List Nat
  vin : List Nat
  lnr : Nat
  labels : Option (List Nat)
  deriving Repr

/-- Python tuple[0]: IndexError on the empty tuple. -/
def headE : List Nat → Except PyErr Nat
  | [] => .error .indexError
  | x :: _ => .ok x

/-- Edge construction of _symmetry_graph: first the unary relations, then
    per occurrence vertex the connections to its group vertex and points,
    with position labels when the relation is ordered (labels are allocated
    lazily the first time an ordered relation is seen). -/
def symEdges (blocks : Blocks) (signature : List (String × RelInfo)) (st : SymTables) :
    Except PyErr EdgeData := do
  let ed ← st.unary.foldlM (fun (ed : EdgeData) u => do
      let blk ← dget blocks u.1
      let heads ← blk.mapM headE
      let gv ← dget st.groupVerts u.1
      let conns := heads ++ [gv]
      pure { ed with vout := ed.vout ++ conns,
                     vin := ed.vin ++ List.replicate conns.length u.2 })
    ⟨[], [], 1, none⟩
  st.tupleVerts.foldlM (fun (ed : EdgeData) tv => do
    let info ← dget signature tv.1
    let ordered := info.ordered && decide (info.arity ≠ 1)
    let ed :=
      if ordered then
        { ed with labels := some (ed.labels.getD (List.replicate ed.vin.length 0)),
                  lnr := max ed.lnr info.arity }
      else ed
    let gv ← dget st.groupVerts tv.1
    tv.2.foldlM (fun (ed : EdgeData) bp => do
      let conns := gv :: bp.1
      let newLabels :=
        if ordered then ed.labels.map (fun l => l ++ List.range conns.length)
        else ed.labels.map (fun l => l ++ List.replicate conns.length 0)
      pure { ed with vout := ed.vout ++ conns,
                     vin := ed.vin ++ List.replicate conns.length bp.2,
                     labels := newLabels }) ed) ed

/-- Flag._symmetry_graph: vertex count, edge endpoint lists, edge label
    count, optional labels and the colour partition. -/
def Flag.symmetryGraph (f : Flag) (weak : Bool) :
    Except PyErr (Nat × List Nat × List Nat × Nat × Option (List Nat) × List (List Nat)) := do
  let st ← symTables f.n f.blocks f.theory.signature
  let part ← symPartition f weak st
  let ed ← symEdges f.blocks f.theory.signature st
  pure (st.nextVertex, ed.vout, ed.vin, ed.lnr, ed.labels, part)

/-- Lexicographic order on labelled edges. -/
def tripLt (a b : Nat × Nat × Nat) : Bool :=
  if a.1 < b.1 then true else if b.1 < a.1 then false
  else if a.2.1 < b.2.1 then true else if b.2.1 < a.2.1 then false
  else decide (a.2.2 < b.2.2)

/-- Lexicographic order on sorted edge lists. -/
def edgeListLt : List (Nat × Nat × Nat) → List (Nat × Nat × Nat) → Bool
  | [], [] => false
  | [], _ :: _ => true
  | _ :: _, [] => false
  | a :: xs, b :: ys => if tripLt a b then true else if tripLt b a then false else edgeListLt xs ys

/-- Application of a vertex bijection given as an association list (identity
    off its domain). -/
def applyMap (m : List (Nat × Nat)) (v : Nat) : Nat :=
  match m with
  | [] => v
  | (a, b) :: rest => if a = v then b else applyMap rest v

/-- All colour-preserving vertex bijections of a partition: every class is
    permuted within itself. -/
def allPartMaps (partition : List (List Nat)) : List (List (Nat × Nat)) :=
  partition.foldr (fun cls acc =>
    ((permsK cls.length cls).map (fun p => acc.map (fun m => cls.zip p ++ m))).flatten) [[]]

/-- An undirected edge normalized to (small endpoint, large endpoint, label). -/
def normEdge (u v l : Nat) : Nat × Nat × Nat := (min u v, max u v, l)

/-- Zip of the two endpoint lists with the labels. -/
def zip3 : List Nat → List Nat → List Nat → List (Nat × Nat × Nat)
  | u :: us, v :: vs, l :: ls => (u, v, l) :: zip3 us vs ls
  | _, _, _ => []

/-- Modelled from the spec: the external canonical-form oracle
    (canonical_form_from_edge_list of the blisspy collaborator, which is not
    part of this repository).  Per the spec it is a pure deterministic
    function of the coloured edge-labelled graph returning a canonical edge
    set and a relabelling; it is modelled as the lexicographically smallest
    relabelled edge list over all colour-preserving vertex bijections,
    together with the first bijection attaining it. -/
def canonicalFormFromEdgeList (Vnr : Nat) (Vout Vin : List Nat) (Lnr : Nat)
    (labels : Option (List Nat)) (partition : List (List Nat)) :
    List (Nat × Nat × Nat) × List (Nat × Nat) :=
  let labs := labels.getD (List.replicate Vout.length 0)
  let base := zip3 Vout Vin labs
  let cand := fun (m : List (Nat × Nat)) =>
    sortPy tripLt (base.map (fun t => normEdge (applyMap m t.1) (applyMap m t.2.1) t.2.2))
  match allPartMaps partition with
  | [] => ([], [])
  | m0 :: rest =>
    rest.foldl (fun best m =>
      let c := cand m
      if edgeListLt c best.1 then (c, m) else best) (cand m0, m0)

/-- Flag.unique: the identity certificate (ftype size, weak switch, sorted
    canonical edges) and the relabelling restricted to the structure's own
    points.  Memoization is omitted: recomputation is idempotent. -/
def Flag.unique (f : Flag) (weak : Bool) :
    Except PyErr ((Nat × Bool × List (Nat × Nat × Nat)) × List (Nat × Nat)) := do
  let sg ← f.symmetryGraph weak
  let res := canonicalFormFromEdgeList sg.1 sg.2.1 sg.2.2.1 sg.2.2.2.1 sg.2.2.2.2.1 sg.2.2.2.2.2
  let newEdges := sortPy tripLt res.1
  let relabel := (List.range f.n).map (fun i => (i, applyMap res.2 i))
  pure ((f.ftypePoints.length, weak, newEdges), relabel)

/-- Flag.weak_equal: theory and ftype-size fast reject, then comparison of
    the weak certificates' edge component. -/
def Flag.weakEqual (f g : Flag) : Except PyErr Bool :=
  if f.theory ≠ g.theory then .ok false
  else if f.ftypePoints.length ≠ g.ftypePoints.length then .ok false
  else do
    let su ← f.unique true
    let ou ← g.unique true
    pure (decide (su.1 = ou.1))

/-- Flag.normal_equal: theory and ftype-size fast reject, then comparison of
    the certificates' edge component. -/
def Flag.normalEqual (f g : Flag) : Except PyErr Bool :=
  if f.theory ≠ g.theory then .ok false
  else if f.ftypePoints.length ≠ g.ftypePoints.length then .ok false
  else do
    let su ← f.unique false
    let ou ← g.unique false
    pure (decide (su.1 = ou.1))

/-- Flag.__eq__: parent (theory) check plus normal_equal. -/
def Flag.eq (f g : Flag) : Except PyErr Bool :=
  if f.theory ≠ g.theory then .ok false
  else f.normalEqual g

/-- Flag.__hash__ is hash(self.unique()[0]); the modelled hash value is the
    certificate itself (any deterministic function of it would do). -/
def Flag.hashValue (f : Flag) :
    Except PyErr (Nat × Bool × List (Nat × Nat × Nat)) := do
  let u ← f.unique false
  pure u.1

/-- Flag.__lt__ (proper induced inclusion): short-circuits on theory, sizes
    and ftypes, then searches the point subsets of the other structure. -/
def Flag.lt (f g : Flag) : Except PyErr Bool :=
  if f.theory ≠ g.theory then .ok false
  else if f.n ≥ g.n then .ok false
  else do
    let sft ← f.ftype
    let oft ← g.ftype
    let e ← sft.eq oft
    if ¬ e then .ok false
    else
      listAnyM (fun subp => do
        let osub ← g.subflag (some subp) none
        f.eq osub)
        (combinationsPy g.notFtypePoints (f.n - sft.n))

/-- Flag.__le__: equality or proper inclusion. -/
def Flag.le (f g : Flag) : Except PyErr Bool := do
  let e ← f.eq g
  if e then pure true else f.lt g

/-- Flag.nonequal_permutations: relabel by every point permutation,
    deduplicated by strong_equal. -/
def Flag.nonequalPermutations (f : Flag) : Except PyErr (List Flag) :=
  (permutationsPy (List.range f.n)).foldlM (fun ret perm => do
    let nf ← f.subflag (some perm) none
    if ret.any (fun x => x.strongEqual nf) then pure ret else pure (ret ++ [nf])) []

/-- Flag._relation_pattern: per symmetry group (in order of first
    appearance) the ascending tuple of block sizes. -/
def Flag.relationPattern (f : Flag) : Except PyErr (List (List Nat)) := do
  let grouped ← f.theory.signature.foldlM (fun (acc : List (Nat × List Nat)) p => do
    let blk ← dget f.blocks p.1
    pure (dictAppend acc p.2.group blk.length)) []
  pure (grouped.map (fun g => sortNat g.2))

/-- _merge_blocks_0: concatenate the two dicts per key of the first. -/
def mergeBlocks0 (b0 b1 : Blocks) : Except PyErr Blocks :=
  b0.mapM (fun p => do
    let w ← dget b1 p.1
    pure (p.1, p.2 ++ w))

/-- _merge_blocks_1: append the second dict's tuples containing from0, with
    from0 renamed to to0. -/
def mergeBlocks1 (b0 b1 : Blocks) (from0 to0 : Nat) : Except PyErr Blocks :=
  b0.mapM (fun p => do
    let w ← dget b1 p.1
    let remapped := (w.filter (fun t => t.contains from0)).map
      (fun t => t.map (fun x => if x = from0 then to0 else x))
    pure (p.1, p.2 ++ remapped))

/-- _merge_blocks_2: append the second dict's tuples containing both source
    points, remapped. -/
def mergeBlocks2 (b0 b1 : Blocks) (from0 to0 from1 to1 : Nat) : Except PyErr Blocks :=
  b0.mapM (fun p => do
    let w ← dget b1 p.1
    let remapped := (w.filter (fun t => t.contains from0 && t.contains from1)).map
      (fun t => t.map (fun x => if x ≠ from0 then (if x ≠ from1 then x else to1) else to0))
    pure (p.1, p.2 ++ remapped))

/-- _get_max_arity: every arity must lie in 1..3, the maximum is returned. -/
def getMaxArity (signature : List (String × RelInfo)) : Except PyErr Nat :=
  signature.foldlM (fun m p =>
    if p.2.arity < 1 ∨ p.2.arity > 3 then .error .valueError
    else pure (max m p.2.arity)) 0

/-- _single_relation: every subset of the possible tuples of one relation on
    the last arity points (all orderings of them when ordered). -/
def singleRelation (n : Nat) (info : RelInfo) : List (List (List Nat)) :=
  if n < info.arity then [[]]
  else
    let base := List.range' (n - info.arity) info.arity
    let ordBase := if info.ordered then permutationsPy base else [base]
    (List.range (ordBase.length + 1)).flatMap (fun r => combinationsPy ordBase r)

/-- _get_extensions: the product of the per-relation choices (only relations
    of maximal arity get nontrivial choices), keyed in signature order. -/
def getExtensions (n : Nat) (signature : List (String × RelInfo)) :
    Except PyErr (List Blocks) := do
  let maxArity ← getMaxArity signature
  let terms := signature.map (fun p =>
    if p.2.arity ≠ maxArity then [[]] else singleRelation n p.2)
  pure ((productPy terms).map (fun poss => (signature.zip poss).map (fun q => (q.1.1, q.2))))

/-- An excluded item is a concrete structure or a pattern. -/
inductive Excl where
  | flag : Flag → Excl
  | pattern : Pattern → Excl
  deriving Repr

/-- Pattern.not_ftype_points. -/
def Pattern.notFtypePoints (p : Pattern) : List Nat :=
  (List.range p.n).filter (fun i => decide (i ∉ p.ftypePoints))

/-- Pattern.ftype: the structure induced on the type points, passing the
    original type labels through as the new ftype argument, exactly as the
    source does. -/
def Pattern.ftype (p : Pattern) : Except PyErr Flag :=
  Flag.make p.theory p.ftypePoints.length p.ftypePoints
    (p.blocks.map (fun b => (b.1, subblockHelper p.ftypePoints b.2)))

/-- Pattern.subpattern: type points first, then the requested points, with a
    set-equality guard on the type. -/
def Pattern.subpattern (p : Pattern) (points : Option (List Nat))
    (ftypePoints : Option (List Nat)) : Except PyErr Pattern := do
  let ftp := ftypePoints.getD p.ftypePoints
  let pts := match points with
    | none => ftp ++ (List.range p.n).filter (fun i => decide (i ∉ ftp))
    | some ps => ftp ++ ps.filter (fun i => decide (i ∉ ftp))
  let sameSet := ftp.all (fun x => p.ftypePoints.contains x)
    && p.ftypePoints.all (fun x => ftp.contains x)
  if ¬ sameSet then .error .valueError
  else do
    let blocks := p.blocks.map (fun b => (b.1, subblockHelper pts b.2))
    let newFtp := ftp.map (fun i => listIndex pts i)
    Pattern.make p.theory pts.length newFtp blocks

/-- The optional-companion key suffix. -/
def optSuffix : String := "_o"

/-- _block_refinement: required tuples present, realized tuples not
    forbidden, forbidden tuples preserved. -/
def blockRefinement (block0 missing0 block1 missing1 : List (List Nat)) : Bool :=
  block0.all (fun t => block1.contains t)
    && block1.all (fun t => ! missing0.contains t)
    && missing0.all (fun t => missing1.contains t)

/-- Pattern.is_compatible: size, theory and ftype fast rejects, then a search
    over the permutations of the target's non-type points; each permutation
    evaluates the refinement of every relation with its optional companion
    block (the companion keys are looked up in both block dicts). -/
def Pattern.isCompatible (p : Pattern) (other : Flag) : Except PyErr Bool :=
  if p.n > other.n then .ok false
  else if p.theory ≠ other.theory then .ok false
  else do
    let pft ← p.ftype
    let oft ← other.ftype
    let e ← pft.eq oft
    if ¬ e then .ok false
    else do
      let opattern ← Pattern.make p.theory other.n other.ftypePoints other.blocks
      let sb := p.blocks
      listAnyM (fun perm => do
        let opermed ← opattern.subpattern (some perm) none
        let ob := opermed.blocks
        let rs ← p.theory.signature.mapM (fun s => do
          let b0 ← dget sb s.1
          let m0 ← dget sb (s.1 ++ optSuffix)
          let b1 ← dget ob s.1
          let m1 ← dget ob (s.1 ++ optSuffix)
          pure (blockRefinement b0 m0 b1 m1))
        pure (rs.all id))
        (permsK p.notFtypePoints.length other.notFtypePoints)

/-- _excluded_compatible: the candidate is rejected (False) whenever some
    placement of an excluded structure or pattern over the shared core
    matches it. -/
def excludedCompatible (n : Nat) (flag : Flag) (excluded : List Excl)
    (maxSignature : Nat) : Except PyErr Bool :=
  let basePoints := List.range' (n - maxSignature) maxSignature
  listAllM (fun item =>
    match item with
    | .flag fx =>
      if fx.n < maxSignature then pure true
      else listAllM (fun extra => do
        let sf ← flag.subflag (some (basePoints ++ extra)) none
        let e ← sf.eq fx
        pure (! e))
        (combinationsPy (List.range (n - maxSignature)) (fx.n - maxSignature))
    | .pattern px =>
      if px.n < maxSignature then pure true
      else listAllM (fun extra => do
        let sf ← flag.subflag (some (basePoints ++ extra)) none
        let c ← px.isCompatible sf
        pure (! c))
        (combinationsPy (List.range (n - maxSignature)) (px.n - maxSignature))) excluded

/-- Membership in a result bucket via Flag equality (the Python in operator
    comparing stored elements against the new flag). -/
def flagMemList (fl : Flag) (fs : List Flag) : Except PyErr Bool :=
  listAnyM (fun x => x.eq fl) fs

/-- Insertion into the pattern-keyed result dict of possible_mergings: a new
    pattern key is appended, an existing bucket only grows when no stored
    flag equals the new one. -/
def retAdd : List (List (List Nat) × List Flag) → List (List Nat) → Flag →
    Except PyErr (List (List (List Nat) × List Flag))
  | [], patt, fl => pure [(patt, [fl])]
  | (p2, fs) :: rest, patt, fl =>
    if p2 = patt then do
      let memb ← flagMemList fl fs
      if memb then pure ((p2, fs) :: rest) else pure ((p2, fs ++ [fl]) :: rest)
    else do
      let r ← retAdd rest patt fl
      pure ((p2, fs) :: r)

/-- The extension-merge-filter-insert block shared verbatim by the three
    arity branches of possible_mergings. -/
def mergeTail (n : Nat) (theory : Theory) (excluded : List Excl) (maxSig : Nat)
    (overlap : Blocks) (extensions : List Blocks)
    (ret : List (List (List Nat) × List Flag)) :
    Except PyErr (List (List (List Nat) × List Flag)) :=
  extensions.foldlM (fun ret ext => do
    let finalOverlap ← mergeBlocks0 overlap ext
    let finalFlag ← Flag.make theory n [] finalOverlap
    let ok ← excludedCompatible n finalFlag excluded maxSig
    if ok then do
      let patt ← finalFlag.relationPattern
      retAdd ret patt finalFlag
    else pure ret) ret

/-- possible_mergings: the structure generator gluing smaller structures and
    extending them, per maximal signature arity. -/
def possibleMergings (n : Nat) (smaller : List Flag)
    (signature : List (String × RelInfo)) (excluded : List Excl) :
    Except PyErr (List Flag) := do
  let maxArity ← getMaxArity signature
  let extensions ← getExtensions n signature
  let minustwo := List.range (n - 2) ++ [n - 1]
  let ret ←
    if maxArity = 1 then
      smaller.foldlM (fun ret F =>
        mergeTail n F.theory excluded 1 F.blocks extensions ret) []
    else if maxArity = 2 then
      smaller.enum.foldlM (fun ret q => do
        let F := q.2
        let Fperms ← F.nonequalPermutations
        (smaller.drop q.1).foldlM (fun ret G => do
          let Gsub ← G.subflag (some (List.range (n - 2))) none
          Fperms.foldlM (fun ret Fp => do
            let fsub ← Fp.subflag (some (List.range (n - 2))) none
            if fsub.strongEqual Gsub then do
              let overlap ← mergeBlocks1 Fp.blocks G.blocks (n - 2) (n - 1)
              mergeTail n F.theory excluded 2 overlap extensions ret
            else pure ret) ret) ret) []
    else if maxArity = 3 then do
      let allPerms ← smaller.mapM (fun F => F.nonequalPermutations)
      let combined := smaller.zip allPerms
      combined.enum.foldlM (fun ret q => do
        let F := q.2.1
        let Fsubf ← F.subflag (some (List.range (n - 2))) none
        (combined.enum.drop q.1).foldlM (fun ret qj => do
          let Gperms := qj.2.2
          qj.2.2.foldlM (fun ret Gp => do
            let Gsub ← Gp.subflag (some (List.range (n - 2))) none
            if Gsub.strongEqual Fsubf then do
              let FG ← mergeBlocks1 F.blocks Gp.blocks (n - 2) (n - 1)
              (combined.drop qj.1).foldlM (fun ret qk => do
                qk.2.foldlM (fun ret Hp => do
                  let hm ← Hp.subflag (some minustwo) none
                  if Gsub.strongEqual hm then do
                    let hs ← Hp.subflag (some (List.range (n - 2))) none
                    let fm ← F.subflag (some minustwo) none
                    if hs.strongEqual fm then do
                      let FGH ← mergeBlocks2 FG Hp.blocks (n - 3) (n - 2) (n - 2) (n - 1)
                      mergeTail n F.theory excluded 3 FGH extensions ret
                    else pure ret
                  else pure ret) ret) ret
            else pure ret) ret) ret) []
    else pure []
  pure ((ret.map (fun p => p.2)).flatten)

/-- The graph-theory instance used by the concrete claims: one symmetric
    unordered binary relation. -/
def edgesKey : String := "edges"

def graphSignature : List (String × RelInfo) := [(edgesKey, ⟨2, false, 0⟩)]

def graphTheory : Theory := ⟨graphSignature⟩

/-- The empty structure on two points. -/
def emptyTwo : Flag := ⟨graphTheory, 2, [], [(edgesKey, [])]⟩

/-- A single edge on two points, no type. -/
def edgeTwo : Flag := ⟨graphTheory, 2, [], [(edgesKey, [[0, 1]])]⟩

/-- A single edge on two points with one type point. -/
def pointedEdge : Flag := ⟨graphTheory, 2, [0], [(edgesKey, [[0, 1]])]⟩

/-- The triangle: all three pairs related, no type. -/
def triangleFlag : Flag := ⟨graphTheory, 3, [], [(edgesKey, [[0, 1], [0, 2], [1, 2]])]⟩

/-- The empty structure on three points. -/
def emptyThree : Flag := ⟨graphTheory, 3, [], [(edgesKey, [])]⟩

/-- One edge on three points. -/
def oneEdgeThree : Flag := ⟨graphTheory, 3, [], [(edgesKey, [[1, 2]])]⟩

/-- The cherry (path on three points). -/
def cherryFlag : Flag := ⟨graphTheory, 3, [], [(edgesKey, [[0, 2], [1, 2]])]⟩

/-- The pattern on two points with an empty required edge block (and no
    optional companion key, which the Pattern constructor rejects anyway). -/
def emptyPatternTwo : Pattern := ⟨graphTheory, 2, [], [(edgesKey, [])]⟩

/-- The same unconstrained pattern on three points. -/
def emptyPatternThree : Pattern := ⟨graphTheory, 3, [], [(edgesKey, [])]⟩

end Flags

/- Basic lemmas about the sparse representation invariant. -/

theorem pairsOK_mono {lo1 lo2 : Nat} (h : lo1 ≤ lo2) :
    ∀ {xs : List (Nat × Int)}, pairsOK lo2 xs → pairsOK lo1 xs
  | [], _ => trivial
  | (i, v) :: xs, ⟨h1, h2, h3, h4⟩ => ⟨le_trans h h1, h2, h3, h4⟩

theorem pairsOK_memb :
    ∀ {lo : Nat} {xs : List (Nat × Int)}, pairsOK lo xs → ∀ p ∈ xs, lo ≤ p.1 ∧ p.2 ≠ 0 ∧ int32 p.2 := by
  intro lo xs
  induction xs generalizing lo with
  | nil => intro _ p hp; cases hp
  | cons hd tl ih =>
    intro h p hp
    obtain ⟨h1, h2, h3, h4⟩ := h
    cases hp with
    | head => exact ⟨h1, h2, h3⟩
    | tail _ hm =>
      have r := ih h4 p hm
      exact ⟨by omega, r.2⟩

theorem pairsOK_empty_of_bound {lo : Nat} :
    ∀ {xs : List (Nat × Int)}, pairsOK lo xs → (∀ p ∈ xs, p.1 < lo) → xs = [] := by
  intro xs hok hb
  cases xs with
  | nil => rfl
  | cons hd tl =>
    exact absurd (hb hd (List.mem_cons_self _ _)) (not_lt.mpr hok.1)

theorem getExp_zero_of_lt :
    ∀ {lo : Nat} {xs : List (Nat × Int)}, pairsOK lo xs → ∀ {j : Nat}, j < lo → getExp xs j = 0 := by
  intro lo xs h j hj
  cases xs with
  | nil => rfl
  | cons hd tl =>
    obtain ⟨h1, h2, h3, h4⟩ := h
    simp only [getExp]
    have hne : hd.1 ≠ j := by omega
    have hlt : j < hd.1 := by omega
    simp [hne, hlt]

theorem int32_zero : int32 0 := by constructor <;> norm_num [int32]

theorem getExp_int32 :
    ∀ {lo : Nat} {xs : List (Nat × Int)}, pairsOK lo xs → ∀ j, int32 (getExp xs j) := by
  intro lo xs
  induction xs generalizing lo with
  | nil => intro _ j; exact int32_zero
  | cons hd tl ih =>
    intro h j
    obtain ⟨h1, h2, h3, h4⟩ := h
    simp only [getExp]
    by_cases he : hd.1 = j
    · simp [he, h3]
    · by_cases hl : j < hd.1
      · simp [he, hl, int32_zero]
      · simp [he, hl]
        exact ih h4 j

theorem getExp_mem : ∀ {xs : List (Nat × Int)} {j : Nat},
    getExp xs j ≠ 0 → (j, getExp xs j) ∈ xs := by
  intro xs
  induction xs with
  | nil => intro j h; simp [getExp] at h
  | cons hd tl ih =>
    obtain ⟨i, v⟩ := hd
    intro j h
    simp only [getExp] at h ⊢
    by_cases he : i = j
    · subst he
      simp at h ⊢
    · by_cases hl : j < i
      · simp [he, hl] at h
      · simp [he, hl] at h ⊢
        right
        exact ih h

/- The overflow test of the source detects exactly the sums and differences
   leaving the 32-bit range, given in-range operands. -/

theorem wrap32_add_spec {e1 e2 : Int} (h1 : int32 e1) (h2 : int32 e2) :
    (¬ ((0 < e2 ∧ wrap32 (e1 + e2) < e1) ∨ (e2 < 0 ∧ e1 < wrap32 (e1 + e2))) ↔ int32 (e1 + e2))
    ∧ (int32 (e1 + e2) → wrap32 (e1 + e2) = e1 + e2) := by
  obtain ⟨a1, a2⟩ := h1
  obtain ⟨b1, b2⟩ := h2
  unfold wrap32 int32 at *
  norm_num at *
  omega

theorem wrap32_sub_spec {e1 e2 : Int} (h1 : int32 e1) (h2 : int32 e2) :
    (¬ ((0 < e2 ∧ e1 < wrap32 (e1 - e2)) ∨ (e2 < 0 ∧ wrap32 (e1 - e2) < e1)) ↔ int32 (e1 - e2))
    ∧ (int32 (e1 - e2) → wrap32 (e1 - e2) = e1 - e2) := by
  obtain ⟨a1, a2⟩ := h1
  obtain ⟨b1, b2⟩ := h2
  unfold wrap32 int32 at *
  norm_num at *
  omega

/- Lookup and ordering facts for the merged triple stream produced by
   dual_etuple_iter. -/

/-- Lookup in a sorted triple list, defaulting to the pair (0, 0). -/
def getPair : List (Nat × Int × Int) → Nat → Int × Int
  | [], _ => (0, 0)
  | (i, a, b) :: ts, j => if i = j then (a, b) else if j < i then (0, 0) else getPair ts j

/-- Strictly increasing triple indices starting from a lower bound. -/
def triplesFrom : Nat → List (Nat × Int × Int) → Prop
  | _, [] => True
  | lo, (i, _, _) :: ts => lo ≤ i ∧ triplesFrom (i+1) ts

theorem getPair_mem : ∀ {ts : List (Nat × Int × Int)} {j : Nat},
    getPair ts j ≠ (0, 0) → (j, getPair ts j) ∈ ts := by
  intro ts
  induction ts with
  | nil => intro j h; simp [getPair] at h
  | cons hd tl ih =>
    obtain ⟨i, a, b⟩ := hd
    intro j h
    simp only [getPair] at h ⊢
    by_cases he : i = j
    · subst he
      simp at h ⊢
    · by_cases hl : j < i
      · simp [he, hl] at h
      · simp [he, hl] at h ⊢
        right
        exact ih h

theorem dualMerge_spec :
    ∀ (xs ys : List (Nat × Int)), ∀ lo : Nat, pairsOK lo xs → pairsOK lo ys →
      triplesFrom lo (dualMerge xs ys)
      ∧ (∀ j, getPair (dualMerge xs ys) j = (getExp xs j, getExp ys j))
      ∧ (∀ t ∈ dualMerge xs ys,
          ((t.1, t.2.1) ∈ xs ∨ t.2.1 = 0) ∧ ((t.1, t.2.2) ∈ ys ∨ t.2.2 = 0)
          ∧ ((t.1, t.2.1) ∈ xs ∨ (t.1, t.2.2) ∈ ys)) := by
  intro xs ys
  induction xs, ys using dualMerge.induct with
  | case1 =>
    intro lo _ _
    simp only [dualMerge]
    exact ⟨trivial, fun j => rfl, fun t ht => absurd ht (List.not_mem_nil t)⟩
  | case2 i v xs ih =>
    intro lo hx hy
    obtain ⟨h1, h2, h3, h4⟩ := hx
    obtain ⟨m1, m2, m3⟩ := ih (i+1) h4 trivial
    simp only [dualMerge]
    refine ⟨⟨h1, m1⟩, ?_, ?_⟩
    · intro j
      have hm := m2 j
      by_cases he : i = j
      · subst he; simp [getPair, getExp]
      · by_cases hl : j < i
        · simp [getPair, getExp, he, hl]
        · simp [getPair, getExp, he, hl] at hm ⊢
          exact hm
    · intro t ht
      cases ht with
      | head =>
        exact ⟨Or.inl (List.mem_cons_self _ _), Or.inr rfl, Or.inl (List.mem_cons_self _ _)⟩
      | tail _ hm =>
        obtain ⟨c1, c2, c3⟩ := m3 t hm
        refine ⟨?_, c2, ?_⟩
        · cases c1 with
          | inl h => exact Or.inl (List.mem_cons_of_mem _ h)
          | inr h => exact Or.inr h
        · cases c3 with
          | inl h => exact Or.inl (List.mem_cons_of_mem _ h)
          | inr h => exact absurd h (List.not_mem_nil _)
  | case3 j w ys ih =>
    intro lo hx hy
    obtain ⟨h1, h2, h3, h4⟩ := hy
    obtain ⟨m1, m2, m3⟩ := ih (j+1) trivial h4
    simp only [dualMerge]
    refine ⟨⟨h1, m1⟩, ?_, ?_⟩
    · intro j0
      have hm := m2 j0
      by_cases he : j = j0
      · subst he; simp [getPair, getExp]
      · by_cases hl : j0 < j
        · simp [getPair, getExp, he, hl]
        · simp [getPair, getExp, he, hl] at hm ⊢
          exact hm
    · intro t ht
      cases ht with
      | head =>
        exact ⟨Or.inr rfl, Or.inl (List.mem_cons_self _ _), Or.inr (List.mem_cons_self _ _)⟩
      | tail _ hm =>
        obtain ⟨c1, c2, c3⟩ := m3 t hm
        refine ⟨c1, ?_, ?_⟩
        · cases c2 with
          | inl h => exact Or.inl (List.mem_cons_of_mem _ h)
          | inr h => exact Or.inr h
        · cases c3 with
          | inl h => exact absurd h (List.not_mem_nil _)
          | inr h => exact Or.inr (List.mem_cons_of_mem _ h)
  | case4 v xs j w ys ih =>
    intro lo hx hy
    obtain ⟨h1, h2, h3, h4⟩ := hx
    obtain ⟨g1, g2, g3, g4⟩ := hy
    obtain ⟨m1, m2, m3⟩ := ih (j+1) h4 g4
    simp only [dualMerge, if_pos rfl]
    refine ⟨⟨h1, m1⟩, ?_, ?_⟩
    · intro j0
      have hm := m2 j0
      by_cases he : j = j0
      · subst he; simp [getPair, getExp]
      · by_cases hl : j0 < j
        · simp [getPair, getExp, he, hl]
        · simp [getPair, getExp, he, hl] at hm ⊢
          exact hm
    · intro t ht
      cases ht with
      | head =>
        exact ⟨Or.inl (List.mem_cons_self _ _), Or.inl (List.mem_cons_self _ _),
          Or.inl (List.mem_cons_self _ _)⟩
      | tail _ hm =>
        obtain ⟨c1, c2, c3⟩ := m3 t hm
        refine ⟨?_, ?_, ?_⟩
        · cases c1 with
          | inl h => exact Or.inl (List.mem_cons_of_mem _ h)
          | inr h => exact Or.inr h
        · cases c2 with
          | inl h => exact Or.inl (List.mem_cons_of_mem _ h)
          | inr h => exact Or.inr h
        · cases c3 with
          | inl h => exact Or.inl (List.mem_cons_of_mem _ h)
          | inr h => exact Or.inr (List.mem_cons_of_mem _ h)
  | case5 i v xs j w ys hne hlt ih =>
    intro lo hx hy
    obtain ⟨g1, g2, g3, g4⟩ := hy
    have hx2 : pairsOK (j+1) ((i, v) :: xs) := by
      obtain ⟨h1, h2, h3, h4⟩ := hx
      exact ⟨by omega, h2, h3, h4⟩
    obtain ⟨m1, m2, m3⟩ := ih (j+1) hx2 g4
    simp only [dualMerge, if_neg hne, if_pos hlt]
    refine ⟨⟨g1, m1⟩, ?_, ?_⟩
    · intro j0
      have hm := m2 j0
      by_cases he : j = j0
      · subst he
        have hne2 : i ≠ j := by omega
        have : ¬ j < j := by omega
        simp [getPair, getExp, hne2, hlt]
      · by_cases hl : j0 < j
        · have hne2 : i ≠ j0 := by omega
          have hl2 : j0 < i := by omega
          simp [getPair, getExp, he, hl, hne2, hl2]
        · simp only [getPair, getExp, if_neg he, if_neg hl] at hm ⊢
          rw [hm]
    · intro t ht
      cases ht with
      | head =>
        exact ⟨Or.inr rfl, Or.inl (List.mem_cons_self _ _), Or.inr (List.mem_cons_self _ _)⟩
      | tail _ hm =>
        obtain ⟨c1, c2, c3⟩ := m3 t hm
        refine ⟨c1, ?_, ?_⟩
        · cases c2 with
          | inl h => exact Or.inl (List.mem_cons_of_mem _ h)
          | inr h => exact Or.inr h
        · cases c3 with
          | inl h => exact Or.inl h
          | inr h => exact Or.inr (List.mem_cons_of_mem _ h)
  | case6 i v xs j w ys hne hnlt ih =>
    intro lo hx hy
    obtain ⟨h1, h2, h3, h4⟩ := hx
    have hilt : i < j := by omega
    have hy2 : pairsOK (i+1) ((j, w) :: ys) := by
      obtain ⟨g1, g2, g3, g4⟩ := hy
      exact ⟨by omega, g2, g3, g4⟩
    obtain ⟨m1, m2, m3⟩ := ih (i+1) h4 hy2
    simp only [dualMerge, if_neg hne, if_neg hnlt]
    refine ⟨⟨h1, m1⟩, ?_, ?_⟩
    · intro j0
      have hm := m2 j0
      by_cases he : i = j0
      · subst he
        have hne2 : j ≠ i := by omega
        simp [getPair, getExp, hne2, hilt]
      · by_cases hl : j0 < i
        · have hne2 : j ≠ j0 := by omega
          have hl2 : j0 < j := by omega
          simp [getPair, getExp, he, hl, hne2, hl2]
        · simp only [getPair, getExp, if_neg he, if_neg hl] at hm ⊢
          exact hm
    · intro t ht
      cases ht with
      | head =>
        exact ⟨Or.inl (List.mem_cons_self _ _), Or.inr rfl, Or.inl (List.mem_cons_self _ _)⟩
      | tail _ hm =>
        obtain ⟨c1, c2, c3⟩ := m3 t hm
        refine ⟨?_, c2, ?_⟩
        · cases c1 with
          | inl h => exact Or.inl (List.mem_cons_of_mem _ h)
          | inr h => exact Or.inr h
        · cases c3 with
          | inl h => exact Or.inl (List.mem_cons_of_mem _ h)
          | inr h => exact Or.inr h

theorem triplesFrom_memb :
    ∀ {lo : Nat} {ts : List (Nat × Int × Int)}, triplesFrom lo ts → ∀ t ∈ ts, lo ≤ t.1 := by
  intro lo ts
  induction ts generalizing lo with
  | nil => intro _ t ht; cases ht
  | cons hd tl ih =>
    intro h t ht
    obtain ⟨h1, h2⟩ := h
    cases ht with
    | head => exact h1
    | tail _ hm => exact le_trans h1 (le_trans (Nat.le_succ _) (ih h2 t hm))

theorem getPair_of_mem :
    ∀ {lo : Nat} {ts : List (Nat × Int × Int)}, triplesFrom lo ts →
      ∀ t ∈ ts, getPair ts t.1 = t.2 := by
  intro lo ts
  induction ts generalizing lo with
  | nil => intro _ t ht; cases ht
  | cons hd tl ih =>
    intro h t ht
    obtain ⟨h1, h2⟩ := h
    obtain ⟨i, a, b⟩ := hd
    cases ht with
    | head => simp [getPair]
    | tail _ hm =>
      have hgt : i + 1 ≤ t.1 := triplesFrom_memb h2 t hm
      have hne : i ≠ t.1 := by omega
      have hnl : ¬ t.1 < i := by omega
      simp only [getPair, if_neg hne, if_neg hnl]
      exact ih h2 t hm

theorem getExp_inj :
    ∀ {xs ys : List (Nat × Int)} {lo : Nat}, pairsOK lo xs → pairsOK lo ys →
      (∀ j, getExp xs j = getExp ys j) → xs = ys := by
  intro xs
  induction xs with
  | nil =>
    intro ys lo _ hy h
    cases ys with
    | nil => rfl
    | cons hd tl =>
      obtain ⟨j, w⟩ := hd
      have hw := h j
      simp [getExp] at hw
      exact absurd hw.symm hy.2.1
  | cons hd tl ih =>
    intro ys lo hx hy h
    obtain ⟨i, v⟩ := hd
    cases ys with
    | nil =>
      have hv := h i
      simp [getExp] at hv
      exact absurd hv hx.2.1
    | cons hd2 tl2 =>
      obtain ⟨j, w⟩ := hd2
      obtain ⟨hx1, hx2, hx3, hx4⟩ := hx
      obtain ⟨hy1, hy2, hy3, hy4⟩ := hy
      rcases Nat.lt_trichotomy i j with hij | hij | hij
      · exfalso
        have hv := h i
        have hne : j ≠ i := by omega
        simp [getExp, hne, hij] at hv
        exact hx2 hv
      · subst hij
        have hv := h i
        simp [getExp] at hv
        subst hv
        have htl : tl = tl2 := by
          refine ih hx4 hy4 ?_
          intro j0
          by_cases hgt : i < j0
          · have h0 := h j0
            have hne : i ≠ j0 := by omega
            have hnl : ¬ j0 < i := by omega
            simpa [getExp, hne, hnl] using h0
          · have z1 : getExp tl j0 = 0 := getExp_zero_of_lt hx4 (by omega)
            have z2 : getExp tl2 j0 = 0 := getExp_zero_of_lt hy4 (by omega)
            rw [z1, z2]
        rw [htl]
      · exfalso
        have hw := h j
        have hne : i ≠ j := by omega
        simp [getExp, hne, hij] at hw
        exact hy2 hw.symm

/- Success and failure characterisation of the eadd / esub entry loops. -/

theorem eaddEntries_ok :
    ∀ {ts : List (Nat × Int × Int)} {lo : Nat} {zs : List (Nat × Int)},
      triplesFrom lo ts → (∀ t ∈ ts, int32 t.2.1 ∧ int32 t.2.2) →
      eaddEntries ts = .ok zs →
      pairsOK lo zs ∧ (∀ j, getExp zs j = (getPair ts j).1 + (getPair ts j).2)
        ∧ (∀ p ∈ zs, ∃ t ∈ ts, t.1 = p.1) := by
  intro ts
  induction ts with
  | nil =>
    intro lo zs _ _ hok
    simp only [eaddEntries] at hok
    cases hok
    exact ⟨trivial, fun j => by simp [getExp, getPair], fun p hp => absurd hp (List.not_mem_nil p)⟩
  | cons hd rest ih =>
    obtain ⟨i, e1, e2⟩ := hd
    intro lo zs hsort hrange hok
    obtain ⟨hs1, hs2⟩ := hsort
    have hr0 := hrange (i, e1, e2) (List.mem_cons_self _ _)
    have hw := wrap32_add_spec hr0.1 hr0.2
    simp only [eaddEntries] at hok
    by_cases hcond : (0 < e2 ∧ wrap32 (e1 + e2) < e1) ∨ (e2 < 0 ∧ e1 < wrap32 (e1 + e2))
    · rw [if_pos hcond] at hok
      cases hok
    · rw [if_neg hcond] at hok
      have hir : int32 (e1 + e2) := hw.1.mp hcond
      have hsum : wrap32 (e1 + e2) = e1 + e2 := hw.2 hir
      cases hrest : eaddEntries rest with
      | error err => rw [hrest] at hok; cases hok
      | ok r =>
        rw [hrest] at hok
        simp only [Except.bind, bind, pure, Except.pure] at hok
        obtain ⟨q1, q2, q3⟩ := ih hs2 (fun t ht => hrange t (List.mem_cons_of_mem _ ht)) hrest
        have hzs : zs = if wrap32 (e1 + e2) = 0 then r else (i, wrap32 (e1 + e2)) :: r := by
          cases hok; rfl
        by_cases hz : wrap32 (e1 + e2) = 0
        · rw [if_pos hz] at hzs
          subst hzs
          refine ⟨pairsOK_mono (by omega) q1, ?_, ?_⟩
          · intro j
            rcases Nat.lt_trichotomy j i with hj | hj | hj
            · have : getExp zs j = 0 := getExp_zero_of_lt q1 (by omega)
              rw [this]
              have hne : i ≠ j := by omega
              simp [getPair, hne, hj]
            · subst hj
              have : getExp zs j = 0 := getExp_zero_of_lt q1 (by omega)
              rw [this]
              simp [getPair]
              omega
            · have hne : i ≠ j := by omega
              have hnl : ¬ j < i := by omega
              simp only [getPair, if_neg hne, if_neg hnl]
              exact q2 j
          · intro p hp
            obtain ⟨t, ht, he⟩ := q3 p hp
            exact ⟨t, List.mem_cons_of_mem _ ht, he⟩
        · rw [if_neg hz] at hzs
          subst hzs
          refine ⟨⟨hs1, hz, by rw [hsum]; exact hir, q1⟩, ?_, ?_⟩
          · intro j
            rcases Nat.lt_trichotomy j i with hj | hj | hj
            · have hne : i ≠ j := by omega
              simp [getExp, getPair, hne, hj]
            · subst hj
              simp [getExp, getPair, hsum]
            · have hne : i ≠ j := by omega
              have hnl : ¬ j < i := by omega
              simp only [getExp, getPair, if_neg hne, if_neg hnl]
              exact q2 j
          · intro p hp
            cases hp with
            | head => exact ⟨(i, e1, e2), List.mem_cons_self _ _, rfl⟩
            | tail _ hm =>
              obtain ⟨t, ht, he⟩ := q3 p hm
              exact ⟨t, List.mem_cons_of_mem _ ht, he⟩

theorem eaddEntries_err_of :
    ∀ {ts : List (Nat × Int × Int)},
      (∀ t ∈ ts, int32 t.2.1 ∧ int32 t.2.2) →
      (∃ t ∈ ts, ¬ int32 (t.2.1 + t.2.2)) →
      ∃ m, eaddEntries ts = .error (.overflowError m) := by
  intro ts
  induction ts with
  | nil => intro _ h; obtain ⟨t, ht, _⟩ := h; cases ht
  | cons hd rest ih =>
    obtain ⟨i, e1, e2⟩ := hd
    intro hrange hex
    have hr0 := hrange (i, e1, e2) (List.mem_cons_self _ _)
    have hw := wrap32_add_spec hr0.1 hr0.2
    by_cases hcond : (0 < e2 ∧ wrap32 (e1 + e2) < e1) ∨ (e2 < 0 ∧ e1 < wrap32 (e1 + e2))
    · exact ⟨e1 + e2, by simp only [eaddEntries]; rw [if_pos hcond]⟩
    · have hir : int32 (e1 + e2) := hw.1.mp hcond
      obtain ⟨t, ht, hbad⟩ := hex
      cases ht with
      | head => exact absurd hir hbad
      | tail _ hm =>
        obtain ⟨m, hrest⟩ := ih (fun t ht => hrange t (List.mem_cons_of_mem _ ht)) ⟨t, hm, hbad⟩
        refine ⟨m, ?_⟩
        simp only [eaddEntries]
        rw [if_neg hcond, hrest]
        rfl

theorem esubEntries_ok_of :
    ∀ {ts : List (Nat × Int × Int)} {lo : Nat},
      triplesFrom lo ts → (∀ t ∈ ts, int32 t.2.1 ∧ int32 t.2.2) →
      (∀ t ∈ ts, int32 (t.2.1 - t.2.2)) →
      ∃ zs, esubEntries ts = .ok zs ∧ pairsOK lo zs
        ∧ (∀ j, getExp zs j = (getPair ts j).1 - (getPair ts j).2)
        ∧ (∀ p ∈ zs, ∃ t ∈ ts, t.1 = p.1) := by
  intro ts
  induction ts with
  | nil =>
    intro lo _ _ _
    exact ⟨[], rfl, trivial, fun j => by simp [getExp, getPair], fun p hp => absurd hp (List.not_mem_nil p)⟩
  | cons hd rest ih =>
    obtain ⟨i, e1, e2⟩ := hd
    intro lo hsort hrange hdiff
    obtain ⟨hs1, hs2⟩ := hsort
    have hr0 := hrange (i, e1, e2) (List.mem_cons_self _ _)
    have hd0 := hdiff (i, e1, e2) (List.mem_cons_self _ _)
    have hw := wrap32_sub_spec hr0.1 hr0.2
    have hcond : ¬ ((0 < e2 ∧ e1 < wrap32 (e1 - e2)) ∨ (e2 < 0 ∧ wrap32 (e1 - e2) < e1)) :=
      hw.1.mpr hd0
    have hdval : wrap32 (e1 - e2) = e1 - e2 := hw.2 hd0
    obtain ⟨r, hrest, q1, q2, q3⟩ :=
      ih hs2 (fun t ht => hrange t (List.mem_cons_of_mem _ ht))
        (fun t ht => hdiff t (List.mem_cons_of_mem _ ht))
    refine ⟨if wrap32 (e1 - e2) = 0 then r else (i, wrap32 (e1 - e2)) :: r, ?_, ?_, ?_, ?_⟩
    · simp only [esubEntries]
      rw [if_neg hcond, hrest]
      rfl
    · by_cases hz : wrap32 (e1 - e2) = 0
      · rw [if_pos hz]
        exact pairsOK_mono (by omega) q1
      · rw [if_neg hz]
        exact ⟨hs1, hz, by rw [hdval]; exact hd0, q1⟩
    · intro j
      by_cases hz : wrap32 (e1 - e2) = 0
      · rw [if_pos hz]
        rcases Nat.lt_trichotomy j i with hj | hj | hj
        · have : getExp r j = 0 := getExp_zero_of_lt q1 (by omega)
          rw [this]
          have hne : i ≠ j := by omega
          simp [getPair, hne, hj]
        · subst hj
          have : getExp r j = 0 := getExp_zero_of_lt q1 (by omega)
          rw [this]
          simp [getPair]
          omega
        · have hne : i ≠ j := by omega
          have hnl : ¬ j < i := by omega
          simp only [getPair, if_neg hne, if_neg hnl]
          exact q2 j
      · rw [if_neg hz]
        rcases Nat.lt_trichotomy j i with hj | hj | hj
        · have hne : i ≠ j := by omega
          simp [getExp, getPair, hne, hj]
        · subst hj
          simp [getExp, getPair, hdval]
        · have hne : i ≠ j := by omega
          have hnl : ¬ j < i := by omega
          simp only [getExp, getPair, if_neg hne, if_neg hnl]
          exact q2 j
    · intro p hp
      by_cases hz : wrap32 (e1 - e2) = 0
      · rw [if_pos hz] at hp
        obtain ⟨t, ht, he⟩ := q3 p hp
        exact ⟨t, List.mem_cons_of_mem _ ht, he⟩
      · rw [if_neg hz] at hp
        cases hp with
        | head => exact ⟨(i, e1, e2), List.mem_cons_self _ _, rfl⟩
        | tail _ hm =>
          obtain ⟨t, ht, he⟩ := q3 p hm
          exact ⟨t, List.mem_cons_of_mem _ ht, he⟩

theorem esubEntries_err_of :
    ∀ {ts : List (Nat × Int × Int)},
      (∀ t ∈ ts, int32 t.2.1 ∧ int32 t.2.2) →
      (∃ t ∈ ts, ¬ int32 (t.2.1 - t.2.2)) →
      ∃ m, esubEntries ts = .error (.overflowError m) := by
  intro ts
  induction ts with
  | nil => intro _ h; obtain ⟨t, ht, _⟩ := h; cases ht
  | cons hd rest ih =>
    obtain ⟨i, e1, e2⟩ := hd
    intro hrange hex
    have hr0 := hrange (i, e1, e2) (List.mem_cons_self _ _)
    have hw := wrap32_sub_spec hr0.1 hr0.2
    by_cases hcond : (0 < e2 ∧ e1 < wrap32 (e1 - e2)) ∨ (e2 < 0 ∧ wrap32 (e1 - e2) < e1)
    · exact ⟨e1 - e2, by simp only [esubEntries]; rw [if_pos hcond]⟩
    · have hir : int32 (e1 - e2) := hw.1.mp hcond
      obtain ⟨t, ht, hbad⟩ := hex
      cases ht with
      | head => exact absurd hir hbad
      | tail _ hm =>
        obtain ⟨m, hrest⟩ := ih (fun t ht => hrange t (List.mem_cons_of_mem _ ht)) ⟨t, hm, hbad⟩
        refine ⟨m, ?_⟩
        simp only [esubEntries]
        rw [if_neg hcond, hrest]
        rfl

/- Commutativity of the merged addition. -/

theorem dualMerge_swap :
    ∀ (xs ys : List (Nat × Int)),
      dualMerge xs ys = (dualMerge ys xs).map (fun t => (t.1, t.2.2, t.2.1)) := by
  intro xs ys
  induction xs, ys using dualMerge.induct with
  | case1 => simp [dualMerge]
  | case2 i v xs ih => simp [dualMerge, ih]
  | case3 j w ys ih => simp [dualMerge, ih]
  | case4 v xs j w ys ih => simp [dualMerge, ih]
  | case5 i v xs j w ys hne hlt ih =>
    have h1 : j ≠ i := by omega
    have h2 : ¬ i < j := by omega
    simp only [dualMerge, if_neg hne, if_pos hlt, if_neg h1, if_neg h2, List.map_cons]
    rw [ih]
  | case6 i v xs j w ys hne hnlt ih =>
    have hilt : i < j := by omega
    have h1 : j ≠ i := by omega
    simp only [dualMerge, if_neg hne, if_neg hnlt, if_neg h1, if_pos hilt, List.map_cons]
    rw [ih]

theorem dualMerge_range {xs ys : List (Nat × Int)} (hx : pairsOK 0 xs) (hy : pairsOK 0 ys) :
    ∀ t ∈ dualMerge xs ys, int32 t.2.1 ∧ int32 t.2.2 := by
  intro t ht
  obtain ⟨-, -, c⟩ := dualMerge_spec xs ys 0 hx hy
  obtain ⟨c1, c2, c3⟩ := c t ht
  constructor
  · cases c1 with
    | inl h => exact (pairsOK_memb hx _ h).2.2
    | inr h => rw [h]; exact int32_zero
  · cases c2 with
    | inl h => exact (pairsOK_memb hy _ h).2.2
    | inr h => rw [h]; exact int32_zero

theorem eaddEntries_swap :
    ∀ {ts : List (Nat × Int × Int)},
      (∀ t ∈ ts, int32 t.2.1 ∧ int32 t.2.2) →
      eaddEntries (ts.map (fun t => (t.1, t.2.2, t.2.1))) = eaddEntries ts := by
  intro ts
  induction ts with
  | nil => intro _; rfl
  | cons hd rest ih =>
    obtain ⟨i, e1, e2⟩ := hd
    intro hrange
    have hr0 := hrange (i, e1, e2) (List.mem_cons_self _ _)
    have hw1 := (wrap32_add_spec hr0.1 hr0.2).1
    have hw2 := (wrap32_add_spec hr0.2 hr0.1).1
    have hcomm : e2 + e1 = e1 + e2 := by ring
    rw [hcomm] at hw2
    have hrec := ih (fun t ht => hrange t (List.mem_cons_of_mem _ ht))
    simp only [List.map_cons, eaddEntries, hcomm, hrec]
    by_cases hc : int32 (e1 + e2)
    · rw [if_neg (hw2.mpr hc), if_neg (hw1.mpr hc)]
    · have c1 : (0 < e1 ∧ wrap32 (e1 + e2) < e2) ∨ (e1 < 0 ∧ e2 < wrap32 (e1 + e2)) := by
        by_contra hcon
        exact hc (hw2.mp hcon)
      have c2 : (0 < e2 ∧ wrap32 (e1 + e2) < e1) ∨ (e2 < 0 ∧ e1 < wrap32 (e1 + e2)) := by
        by_contra hcon
        exact hc (hw1.mp hcon)
      rw [if_pos c1, if_pos c2]

/- Assembled ETuple-level facts. -/

theorem eadd_ok_spec {a b : ETuple} {c : ETuple} (ha : a.valid) (hb : b.valid)
    (hlen : a.length = b.length) (hc : a.eadd b = .ok c) :
    c.valid ∧ c.length = a.length ∧ (∀ j, getExp c.data j = getExp a.data j + getExp b.data j) := by
  rw [ETuple.eadd, if_neg (fun h => h hlen)] at hc
  cases hadd : eaddEntries (dualMerge a.data b.data) with
  | error err =>
    rw [hadd] at hc
    cases hc
  | ok zs =>
    rw [hadd] at hc
    simp only [bind, Except.bind, pure, Except.pure] at hc
    cases hc
    obtain ⟨msort, mpoint, mmem⟩ := dualMerge_spec a.data b.data 0 ha.1 hb.1
    obtain ⟨q1, q2, q3⟩ := eaddEntries_ok msort (dualMerge_range ha.1 hb.1) hadd
    have hpt : ∀ j, getExp zs j = getExp a.data j + getExp b.data j := by
      intro j
      rw [q2 j, mpoint j]
    refine ⟨⟨q1, ?_⟩, rfl, hpt⟩
    intro p hp
    obtain ⟨t, ht, he⟩ := q3 p hp
    obtain ⟨-, -, c3⟩ := mmem t ht
    cases c3 with
    | inl h =>
      have := ha.2 _ h
      simpa [he] using this
    | inr h =>
      have := hb.2 _ h
      rw [hlen]
      simpa [he] using this

/-- C5: for equal-length well-formed exponent vectors, a.eadd(b).esub(b)
    recovers a whenever the addition succeeds (no overflow), and eadd is
    commutative (as the full outcome, errors included). -/
theorem etuple_eadd_esub_eadd_comm (a b : ETuple) (ha : a.valid) (hb : b.valid)
    (hlen : a.length = b.length) :
    (∀ c, a.eadd b = .ok c → ∃ r, c.esub b = .ok r ∧ r.eqb a = true)
    ∧ a.eadd b = b.eadd a := by
  constructor
  · intro c hc
    obtain ⟨hcval, hclen, hcpt⟩ := eadd_ok_spec ha hb hlen hc
    obtain ⟨n1, n2, n3⟩ := dualMerge_spec c.data b.data 0 hcval.1 hb.1
    have hdiffok : ∀ t ∈ dualMerge c.data b.data, int32 (t.2.1 - t.2.2) := by
      intro t ht
      have hp := getPair_of_mem n1 t ht
      have h2 := n2 t.1
      rw [hp] at h2
      have e1 : t.2.1 = getExp c.data t.1 := by rw [h2]
      have e2 : t.2.2 = getExp b.data t.1 := by rw [h2]
      rw [e1, e2, hcpt t.1]
      have hnr : getExp a.data t.1 + getExp b.data t.1 - getExp b.data t.1
          = getExp a.data t.1 := by ring
      rw [hnr]
      exact getExp_int32 ha.1 t.1
    obtain ⟨zs, hzs, p1, p2, p3⟩ :=
      esubEntries_ok_of n1 (dualMerge_range hcval.1 hb.1) hdiffok
    have hzdata : zs = a.data := by
      refine getExp_inj p1 ha.1 ?_
      intro j
      rw [p2 j, n2 j]
      simp only
      rw [hcpt j]
      ring
    refine ⟨⟨c.length, zs⟩, ?_, ?_⟩
    · rw [ETuple.esub, if_neg (fun h => h (hclen.trans hlen))]
      rw [hzs]
      rfl
    · rw [ETuple.eqb]
      simp [hzdata, hclen, hlen]
  · rw [ETuple.eadd, ETuple.eadd, if_neg (fun h => h hlen), if_neg (fun h => h hlen.symm)]
    rw [dualMerge_swap a.data b.data]
    rw [eaddEntries_swap (dualMerge_range hb.1 ha.1)]
    rw [hlen]

theorem etuple_eadd_esub_eadd_comm_witness :
    ETuple.valid ⟨2, [(0, 1)]⟩ ∧ ETuple.valid ⟨2, [(0, 2), (1, 5)]⟩ ∧
    ((∀ c, ETuple.eadd ⟨2, [(0, 1)]⟩ ⟨2, [(0, 2), (1, 5)]⟩ = .ok c →
        ∃ r, c.esub ⟨2, [(0, 2), (1, 5)]⟩ = .ok r ∧ r.eqb ⟨2, [(0, 1)]⟩ = true)
      ∧ ETuple.eadd ⟨2, [(0, 1)]⟩ ⟨2, [(0, 2), (1, 5)]⟩
          = ETuple.eadd ⟨2, [(0, 2), (1, 5)]⟩ ⟨2, [(0, 1)]⟩) :=
  ⟨by decide, by decide,
    etuple_eadd_esub_eadd_comm ⟨2, [(0, 1)]⟩ ⟨2, [(0, 2), (1, 5)]⟩ (by decide) (by decide) rfl⟩

/- The error claims: length mismatches and overflow detection. -/

theorem keysFrom_mono {lo1 lo2 : Nat} (h : lo1 ≤ lo2) :
    ∀ {xs : List (Nat × Int)}, keysFrom lo2 xs → keysFrom lo1 xs
  | [], _ => trivial
  | (i, v) :: xs, ⟨h1, h2⟩ => ⟨le_trans h h1, h2⟩

theorem getExp_zero_of_lt_keys :
    ∀ {lo : Nat} {xs : List (Nat × Int)}, keysFrom lo xs → ∀ {j : Nat}, j < lo → getExp xs j = 0 := by
  intro lo xs h j hj
  cases xs with
  | nil => rfl
  | cons hd tl =>
    obtain ⟨h1, h2⟩ := h
    simp only [getExp]
    have hne : hd.1 ≠ j := by omega
    have hlt : j < hd.1 := by omega
    simp [hne, hlt]

theorem eadd_err_of_overflow {a b : ETuple} (ha : a.valid) (hb : b.valid)
    (hlen : a.length = b.length)
    (hbad : ∃ j, ¬ int32 (getExp a.data j + getExp b.data j)) :
    ∃ m, a.eadd b = .error (.overflowError m) := by
  obtain ⟨j, hj⟩ := hbad
  obtain ⟨msort, mpoint, mmem⟩ := dualMerge_spec a.data b.data 0 ha.1 hb.1
  have hpair : getPair (dualMerge a.data b.data) j ≠ (0, 0) := by
    intro hzero
    rw [mpoint j] at hzero
    have h1 : getExp a.data j = 0 := by
      have := congrArg Prod.fst hzero
      simpa using this
    have h2 : getExp b.data j = 0 := by
      have := congrArg Prod.snd hzero
      simpa using this
    rw [h1, h2] at hj
    exact hj (by simpa using int32_zero)
  have hmem := getPair_mem hpair
  rw [mpoint j] at hmem
  have hx : ¬ int32 ((j, getExp a.data j, getExp b.data j).2.1
      + (j, getExp a.data j, getExp b.data j).2.2) := by
    simpa using hj
  obtain ⟨m, hm⟩ := eaddEntries_err_of (dualMerge_range ha.1 hb.1)
    ⟨(j, getExp a.data j, getExp b.data j), hmem, hx⟩
  refine ⟨m, ?_⟩
  rw [ETuple.eadd, if_neg (fun h => h hlen), hm]
  rfl

theorem esub_err_of_overflow {a b : ETuple} (ha : a.valid) (hb : b.valid)
    (hlen : a.length = b.length)
    (hbad : ∃ j, ¬ int32 (getExp a.data j - getExp b.data j)) :
    ∃ m, a.esub b = .error (.overflowError m) := by
  obtain ⟨j, hj⟩ := hbad
  obtain ⟨msort, mpoint, mmem⟩ := dualMerge_spec a.data b.data 0 ha.1 hb.1
  have hpair : getPair (dualMerge a.data b.data) j ≠ (0, 0) := by
    intro hzero
    rw [mpoint j] at hzero
    have h1 : getExp a.data j = 0 := by
      have := congrArg Prod.fst hzero
      simpa using this
    have h2 : getExp b.data j = 0 := by
      have := congrArg Prod.snd hzero
      simpa using this
    rw [h1, h2] at hj
    exact hj (by simpa using int32_zero)
  have hmem := getPair_mem hpair
  rw [mpoint j] at hmem
  have hx : ¬ int32 ((j, getExp a.data j, getExp b.data j).2.1
      - (j, getExp a.data j, getExp b.data j).2.2) := by
    simpa using hj
  obtain ⟨m, hm⟩ := esubEntries_err_of (dualMerge_range ha.1 hb.1)
    ⟨(j, getExp a.data j, getExp b.data j), hmem, hx⟩
  refine ⟨m, ?_⟩
  rw [ETuple.esub, if_neg (fun h => h hlen), hm]
  rfl

/-- C6 counterexample: eadd_scaled silently wraps in the scaling
    multiplication.  Scaling the vector (2^30) by 4 should overflow, yet the
    call succeeds and returns the zero vector. -/
theorem etuple_eaddScaled_silent_wrap :
    ETuple.eaddScaled ⟨1, []⟩ ⟨1, [(0, 1073741824)]⟩ 4 = .ok ⟨1, []⟩
    ∧ ¬ int32 (ETuple.get ⟨1, []⟩ 0 + 4 * ETuple.get ⟨1, [(0, 1073741824)]⟩ 0)
    ∧ ETuple.valid ⟨1, []⟩ ∧ ETuple.valid ⟨1, [(0, 1073741824)]⟩ := by
  refine ⟨?_, by decide, by decide, by decide⟩
  have hm : dualMerge ([] : List (Nat × Int)) [(0, 1073741824)] = [(0, 0, 1073741824)] := by
    simp [dualMerge]
  simp only [ETuple.eaddScaled, hm]
  rfl

/-- C6 (amended): eadd, esub and eadd_scaled raise ArithmeticError exactly
    when the two lengths differ; eadd and esub raise OverflowError whenever
    some position of the true sum resp. difference leaves the 32-bit range;
    eadd_scaled only checks its final addition (the internal scaling
    multiplication wraps silently, shown by the counterexample). -/
theorem etuple_overflow_errors (a b : ETuple) (k : Int) (ha : a.valid) (hb : b.valid) :
    (a.length ≠ b.length →
      a.eadd b = .error .arithmeticError ∧ a.esub b = .error .arithmeticError
        ∧ a.eaddScaled b k = .error .arithmeticError)
    ∧ (a.length = b.length →
      ((∃ j, ¬ int32 (a.get j + b.get j)) → ∃ m, a.eadd b = .error (.overflowError m))
      ∧ ((∃ j, ¬ int32 (a.get j - b.get j)) → ∃ m, a.esub b = .error (.overflowError m))) := by
  constructor
  · intro hne
    exact ⟨by rw [ETuple.eadd, if_pos hne], by rw [ETuple.esub, if_pos hne],
      by rw [ETuple.eaddScaled, if_pos hne]⟩
  · intro hlen
    exact ⟨fun hbad => eadd_err_of_overflow ha hb hlen hbad,
      fun hbad => esub_err_of_overflow ha hb hlen hbad⟩

theorem etuple_overflow_errors_witness :
    (∃ m, ETuple.eadd ⟨1, [(0, 2147483647)]⟩ ⟨1, [(0, 1)]⟩ = .error (.overflowError m))
    ∧ (∃ m, ETuple.esub ⟨1, [(0, -2147483648)]⟩ ⟨1, [(0, 1)]⟩ = .error (.overflowError m))
    ∧ ETuple.eadd ⟨1, []⟩ ⟨2, []⟩ = .error .arithmeticError := by
  refine ⟨?_, ?_, ?_⟩
  · exact ((etuple_overflow_errors ⟨1, [(0, 2147483647)]⟩ ⟨1, [(0, 1)]⟩ 0
      (by decide) (by decide)).2 rfl).1 ⟨0, by decide⟩
  · exact ((etuple_overflow_errors ⟨1, [(0, -2147483648)]⟩ ⟨1, [(0, 1)]⟩ 0
      (by decide) (by decide)).2 rfl).2 ⟨0, by decide⟩
  · exact ((etuple_overflow_errors ⟨1, []⟩ ⟨2, []⟩ 0
      (by decide) (by decide)).1 (by decide)).1

theorem escalarDivEntries_spec {n : Int} :
    ∀ {lo : Nat} {xs : List (Nat × Int)}, pairsOK lo xs →
      (n = -1 → ∀ p ∈ xs, p.2 ≠ -2147483648) →
      ∃ l, escalarDivEntries n xs = .ok l
        ∧ keysFrom lo l
        ∧ (∀ j, getExp l j = Int.fdiv (getExp xs j) n)
        ∧ (∀ p ∈ l, p.2 ≠ 0) := by
  intro lo xs
  induction xs generalizing lo with
  | nil =>
    intro _ _
    exact ⟨[], rfl, trivial, fun j => by simp [getExp, Int.zero_fdiv],
      fun p hp => absurd hp (List.not_mem_nil p)⟩
  | cons hd tl ih =>
    obtain ⟨i, v⟩ := hd
    intro h hc
    obtain ⟨h1, h2, h3, h4⟩ := h
    obtain ⟨l, hl, q1, q2, q3⟩ := ih h4 (fun hm p hp => hc hm p (List.mem_cons_of_mem _ hp))
    have hguard : ¬ (n = -1 ∧ v = -2147483648) := by
      intro hg
      exact hc hg.1 (i, v) (List.mem_cons_self _ _) hg.2
    by_cases hq : Int.fdiv v n = 0
    · refine ⟨l, ?_, keysFrom_mono (by omega) q1, ?_, q3⟩
      · rw [escalarDivEntries, if_neg hguard, hl]
        simp only [Except.map, if_pos hq]
      · intro j
        rcases Nat.lt_trichotomy j i with hj | hj | hj
        · have z1 : getExp l j = 0 := getExp_zero_of_lt_keys q1 (by omega)
          have z2 : getExp ((i, v) :: tl) j = 0 := by
            simp only [getExp, if_neg (by omega : ¬ i = j), if_pos hj]
          rw [z1, z2, Int.zero_fdiv]
        · subst hj
          have z1 : getExp l j = 0 := getExp_zero_of_lt_keys q1 (by omega)
          rw [z1]
          simp [getExp, hq.symm]
        · have hx : getExp ((i, v) :: tl) j = getExp tl j := by
            simp only [getExp, if_neg (by omega : ¬ i = j), if_neg (by omega : ¬ j < i)]
          rw [hx]
          exact q2 j
    · refine ⟨(i, Int.fdiv v n) :: l, ?_, ⟨h1, q1⟩, ?_, ?_⟩
      · rw [escalarDivEntries, if_neg hguard, hl]
        simp only [Except.map, if_neg hq]
      · intro j
        rcases Nat.lt_trichotomy j i with hj | hj | hj
        · simp only [getExp, if_neg (by omega : ¬ i = j), if_pos hj]
          rw [Int.zero_fdiv]
        · subst hj
          simp [getExp]
        · simp only [getExp, if_neg (by omega : ¬ i = j), if_neg (by omega : ¬ j < i)]
          exact q2 j
      · intro p hp
        cases hp with
        | head => exact hq
        | tail _ hm => exact q3 p hm

/-- C7: escalar_div raises ZeroDivisionError exactly for divisor 0; for a
    nonzero divisor, provided no stored entry hits the C-int division
    overflow corner (value -2^31 divided by n = -1, the only quotient
    outside the 32-bit range, where the call fails instead of returning), it
    floor-divides every entry by n and every position whose quotient is 0 is
    dropped from the sparse representation (so it reads as 0). -/
theorem etuple_escalar_div_spec (e : ETuple) (n : Int) (he : e.valid)
    (hc : n = -1 → ∀ p ∈ e.data, p.2 ≠ -2147483648) :
    e.escalarDiv 0 = .error .zeroDivisionError
    ∧ (n ≠ 0 → ∃ r, e.escalarDiv n = .ok r ∧ r.length = e.length
        ∧ (∀ j, r.get j = Int.fdiv (e.get j) n)
        ∧ (∀ p ∈ r.data, p.2 ≠ 0)) := by
  constructor
  · rw [ETuple.escalarDiv]
    simp
  · intro hn
    obtain ⟨l, hl, q1, q2, q3⟩ := @escalarDivEntries_spec n 0 e.data he.1 hc
    refine ⟨⟨e.length, l⟩, ?_, rfl, q2, q3⟩
    rw [ETuple.escalarDiv, if_neg hn, hl]
    rfl

theorem etuple_escalar_div_spec_witness :
    ETuple.escalarDiv ⟨3, [(0, 1), (2, 2)]⟩ 0 = .error .zeroDivisionError
    ∧ ∃ r, ETuple.escalarDiv ⟨3, [(0, 1), (2, 2)]⟩ 2 = .ok r ∧ r.length = 3
        ∧ (∀ j, r.get j = Int.fdiv (ETuple.get ⟨3, [(0, 1), (2, 2)]⟩ j) 2)
        ∧ (∀ p ∈ r.data, p.2 ≠ 0) :=
  ⟨(etuple_escalar_div_spec ⟨3, [(0, 1), (2, 2)]⟩ 2 (by decide) (by decide)).1,
    (etuple_escalar_div_spec ⟨3, [(0, 1), (2, 2)]⟩ 2 (by decide) (by decide)).2 (by decide)⟩

/-- C7 counterexample: dividing the stored value -2^31 by -1 asks for the
    quotient 2^31, which a C int cannot hold; Cython's checked division
    fails there (OverflowError where its guard is compiled in, a hardware
    trap otherwise) instead of producing the entry-wise quotient vector the
    claim asserts for every nonzero divisor. -/
theorem etuple_escalar_div_overflow_corner :
    ETuple.escalarDiv ⟨1, [(0, -2147483648)]⟩ (-1)
      = .error (.overflowError 2147483648) := rfl

/- The ordering claims: sparse comparison against dense tuple comparison. -/

theorem pyTupleLt_irrefl : ∀ (x : List Int), pyTupleLt x x = false := by
  intro x
  induction x with
  | nil => rfl
  | cons a xs ih => simp [pyTupleLt, ih]

theorem toDenseGo_length : ∀ (fuel : Nat) (xs : List (Nat × Int)) (i : Nat),
    (toDenseGo xs i fuel).length = fuel := by
  intro fuel
  induction fuel with
  | zero => intro xs i; cases xs <;> rfl
  | succ n ih =>
    intro xs i
    cases xs with
    | nil => simp [toDenseGo, ih]
    | cons hd tl =>
      obtain ⟨j, v⟩ := hd
      by_cases hj : j = i
      · simp [toDenseGo, hj, ih]
      · simp [toDenseGo, hj, ih]

theorem pairsOK_step {lo i : Nat} {v : Int} {xs : List (Nat × Int)}
    (h : pairsOK lo ((i, v) :: xs)) (hlt : lo < i) : pairsOK (lo+1) ((i, v) :: xs) := by
  obtain ⟨h1, h2, h3, h4⟩ := h
  exact ⟨by omega, h2, h3, h4⟩

theorem toDenseGo_inj :
    ∀ (fuel : Nat) {lo : Nat} {xs ys : List (Nat × Int)},
      pairsOK lo xs → pairsOK lo ys →
      (∀ p ∈ xs, p.1 < lo + fuel) → (∀ p ∈ ys, p.1 < lo + fuel) →
      toDenseGo xs lo fuel = toDenseGo ys lo fuel → xs = ys := by
  intro fuel
  induction fuel with
  | zero =>
    intro lo xs ys hx hy bx hby _
    rw [pairsOK_empty_of_bound hx (by simpa using bx),
      pairsOK_empty_of_bound hy (by simpa using hby)]
  | succ n ih =>
    intro lo xs ys hx hy bx hby heq
    cases xs with
    | nil =>
      cases ys with
      | nil => rfl
      | cons hd2 tl2 =>
        obtain ⟨j, w⟩ := hd2
        have hyj : lo ≤ j := hy.1
        by_cases hj : lo = j
        · subst hj
          rw [toDenseGo, toDenseGo, if_pos rfl] at heq
          obtain ⟨h1, -⟩ := List.cons.injEq .. ▸ heq
          exact absurd h1.symm hy.2.1
        · have hj2 : ¬ j = lo := fun h => hj h.symm
          rw [toDenseGo, toDenseGo, if_neg hj2] at heq
          obtain ⟨-, h2⟩ := List.cons.injEq .. ▸ heq
          have := @ih (lo + 1) [] ((j, w) :: tl2)
            trivial (pairsOK_step hy (by omega))
            (by intro p hp; cases hp)
            (by intro p hp; have := hby p hp; omega) h2
          simp at this
    | cons hd tl =>
      obtain ⟨i, v⟩ := hd
      have hxi : lo ≤ i := hx.1
      cases ys with
      | nil =>
        by_cases hi : lo = i
        · subst hi
          rw [toDenseGo, toDenseGo, if_pos rfl] at heq
          obtain ⟨h1, -⟩ := List.cons.injEq .. ▸ heq
          exact absurd h1 hx.2.1
        · have hi2 : ¬ i = lo := fun h => hi h.symm
          rw [toDenseGo, toDenseGo, if_neg hi2] at heq
          obtain ⟨-, h2⟩ := List.cons.injEq .. ▸ heq
          have := @ih (lo + 1) ((i, v) :: tl) []
            (pairsOK_step hx (by omega)) trivial
            (by intro p hp; have := bx p hp; omega)
            (by intro p hp; cases hp) h2
          simp at this
      | cons hd2 tl2 =>
        obtain ⟨j, w⟩ := hd2
        have hyj : lo ≤ j := hy.1
        by_cases hi : lo = i <;> by_cases hj : lo = j
        · subst hi; subst hj
          rw [toDenseGo, toDenseGo, if_pos rfl, if_pos rfl] at heq
          obtain ⟨h1, h2⟩ := List.cons.injEq .. ▸ heq
          subst h1
          have htl := @ih (lo + 1) _ _ hx.2.2.2 hy.2.2.2
            (by intro p hp; have := bx p (List.mem_cons_of_mem _ hp); omega)
            (by intro p hp; have := hby p (List.mem_cons_of_mem _ hp); omega) h2
          rw [htl]
        · subst hi
          have hj2 : ¬ j = lo := fun h => hj h.symm
          rw [toDenseGo, toDenseGo, if_pos rfl, if_neg hj2] at heq
          obtain ⟨h1, -⟩ := List.cons.injEq .. ▸ heq
          exact absurd h1 hx.2.1
        · subst hj
          have hi2 : ¬ i = lo := fun h => hi h.symm
          rw [toDenseGo, toDenseGo, if_neg hi2, if_pos rfl] at heq
          obtain ⟨h1, -⟩ := List.cons.injEq .. ▸ heq
          exact absurd h1.symm hy.2.1
        · have hi2 : ¬ i = lo := fun h => hi h.symm
          have hj2 : ¬ j = lo := fun h => hj h.symm
          rw [toDenseGo, toDenseGo, if_neg hi2, if_neg hj2] at heq
          obtain ⟨-, h2⟩ := List.cons.injEq .. ▸ heq
          exact @ih (lo + 1) _ _ (pairsOK_step hx (by omega)) (pairsOK_step hy (by omega))
            (by intro p hp; have := bx p hp; omega)
            (by intro p hp; have := hby p hp; omega) h2

theorem richLtLoop_dense :
    ∀ (fuel : Nat) {lo : Nat} {xs ys : List (Nat × Int)} (L : Nat),
      pairsOK lo xs → pairsOK lo ys →
      (∀ p ∈ xs, p.1 < lo + fuel) → (∀ p ∈ ys, p.1 < lo + fuel) →
      richLtLoop xs ys L L = pyTupleLt (toDenseGo xs lo fuel) (toDenseGo ys lo fuel) := by
  intro fuel
  induction fuel with
  | zero =>
    intro lo xs ys L hx hy bx hby
    rw [pairsOK_empty_of_bound hx (by simpa using bx),
      pairsOK_empty_of_bound hy (by simpa using hby)]
    simp [richLtLoop, pyTupleLt, toDenseGo]
  | succ n ih =>
    intro lo xs ys L hx hy bx hby
    cases xs with
    | nil =>
      cases ys with
      | nil =>
        have e : toDenseGo ([] : List (Nat × Int)) lo (n+1) = 0 :: toDenseGo [] (lo+1) n := by
          simp [toDenseGo]
        rw [e, pyTupleLt, if_neg (lt_irrefl (0 : Int)), if_neg (lt_irrefl (0 : Int))]
        exact @ih (lo + 1) [] [] L trivial trivial
          (by intro p hp; cases hp) (by intro p hp; cases hp)
      | cons hd2 tl2 =>
        obtain ⟨j, w⟩ := hd2
        have hyj : lo ≤ j := hy.1
        have hw : w ≠ 0 := hy.2.1
        have e : toDenseGo ([] : List (Nat × Int)) lo (n+1) = 0 :: toDenseGo [] (lo+1) n := by
          simp [toDenseGo]
        by_cases hj : lo = j
        · subst hj
          rw [e, toDenseGo, if_pos rfl, richLtLoop, pyTupleLt]
          rcases lt_trichotomy (0 : Int) w with hlt | hlt | hlt
          · rw [if_pos hlt]
            simp only [decide_eq_true_eq]
            omega
          · exact absurd hlt.symm hw
          · rw [if_neg (by omega : ¬ (0 : Int) < w), if_pos hlt]
            simp only [decide_eq_false_iff_not]
            omega
        · have hj2 : ¬ j = lo := fun h => hj h.symm
          rw [e, toDenseGo, if_neg hj2, pyTupleLt,
            if_neg (lt_irrefl (0 : Int)), if_neg (lt_irrefl (0 : Int))]
          exact @ih (lo + 1) [] ((j, w) :: tl2) L trivial (pairsOK_step hy (by omega))
            (by intro p hp; cases hp) (by intro p hp; have := hby p hp; omega)
    | cons hd tl =>
      obtain ⟨i, v⟩ := hd
      have hxi : lo ≤ i := hx.1
      have hv : v ≠ 0 := hx.2.1
      cases ys with
      | nil =>
        have e : toDenseGo ([] : List (Nat × Int)) lo (n+1) = 0 :: toDenseGo [] (lo+1) n := by
          simp [toDenseGo]
        by_cases hi : lo = i
        · subst hi
          rw [e, toDenseGo, if_pos rfl, richLtLoop, pyTupleLt]
          rcases lt_trichotomy v (0 : Int) with hlt | hlt | hlt
          · rw [if_pos hlt]
            simp only [decide_eq_true_eq]
            omega
          · exact absurd hlt hv
          · rw [if_neg (by omega : ¬ v < (0 : Int)), if_pos hlt]
            simp only [decide_eq_false_iff_not]
            omega
        · have hi2 : ¬ i = lo := fun h => hi h.symm
          rw [e, toDenseGo, if_neg hi2, pyTupleLt,
            if_neg (lt_irrefl (0 : Int)), if_neg (lt_irrefl (0 : Int))]
          exact @ih (lo + 1) ((i, v) :: tl) [] L (pairsOK_step hx (by omega)) trivial
            (by intro p hp; have := bx p hp; omega) (by intro p hp; cases hp)
      | cons hd2 tl2 =>
        obtain ⟨j, w⟩ := hd2
        have hyj : lo ≤ j := hy.1
        have hw : w ≠ 0 := hy.2.1
        by_cases hi : lo = i <;> by_cases hj : lo = j
        · subst hi; subst hj
          rw [toDenseGo, toDenseGo, if_pos rfl, if_pos rfl, richLtLoop,
            if_neg (lt_irrefl lo), if_neg (lt_irrefl lo), pyTupleLt]
          by_cases hvw : v = w
          · subst hvw
            rw [if_neg (fun h => h rfl), if_neg (lt_irrefl v), if_neg (lt_irrefl v)]
            exact ih L hx.2.2.2 hy.2.2.2
              (by intro p hp; have := bx p (List.mem_cons_of_mem _ hp); omega)
              (by intro p hp; have := hby p (List.mem_cons_of_mem _ hp); omega)
          · rw [if_pos hvw]
            rcases lt_trichotomy v w with hlt | hlt | hlt
            · rw [if_pos hlt]
              simp only [decide_eq_true_eq]
              omega
            · exact absurd hlt hvw
            · rw [if_neg (by omega : ¬ v < w), if_pos hlt]
              simp only [decide_eq_false_iff_not]
              omega
        · subst hi
          have hj2 : ¬ j = lo := fun h => hj h.symm
          have hjgt : lo < j := by omega
          rw [toDenseGo, toDenseGo, if_pos rfl, if_neg hj2, richLtLoop,
            if_pos hjgt, pyTupleLt]
          rcases lt_trichotomy v (0 : Int) with hlt | hlt | hlt
          · rw [if_pos hlt]
            simp only [decide_eq_true_eq]
            omega
          · exact absurd hlt hv
          · rw [if_neg (by omega : ¬ v < (0 : Int)), if_pos hlt]
            simp only [decide_eq_false_iff_not]
            omega
        · subst hj
          have hi2 : ¬ i = lo := fun h => hi h.symm
          have higt : lo < i := by omega
          rw [toDenseGo, toDenseGo, if_neg hi2, if_pos rfl, richLtLoop,
            if_neg (by omega : ¬ i < lo), if_pos higt, pyTupleLt]
          rcases lt_trichotomy (0 : Int) w with hlt | hlt | hlt
          · rw [if_pos hlt]
            simp only [decide_eq_true_eq]
            omega
          · exact absurd hlt.symm hw
          · rw [if_neg (by omega : ¬ (0 : Int) < w), if_pos hlt]
            simp only [decide_eq_false_iff_not]
            omega
        · have hi2 : ¬ i = lo := fun h => hi h.symm
          have hj2 : ¬ j = lo := fun h => hj h.symm
          rw [toDenseGo, toDenseGo, if_neg hi2, if_neg hj2, pyTupleLt,
            if_neg (lt_irrefl (0 : Int)), if_neg (lt_irrefl (0 : Int))]
          exact @ih (lo + 1) ((i, v) :: tl) ((j, w) :: tl2) L
            (pairsOK_step hx (by omega)) (pairsOK_step hy (by omega))
            (by intro p hp; have := bx p hp; omega) (by intro p hp; have := hby p hp; omega)

theorem richGtLoop_eq_swap : ∀ (xs ys : List (Nat × Int)) (L1 L2 : Nat),
    richGtLoop xs ys L1 L2 = richLtLoop ys xs L1 L2 := by
  intro xs
  induction xs with
  | nil =>
    intro ys L1 L2
    cases ys <;> rfl
  | cons hd tl ih =>
    intro ys L1 L2
    cases ys with
    | nil => rfl
    | cons hd2 tl2 =>
      obtain ⟨i, v⟩ := hd
      obtain ⟨j, w⟩ := hd2
      simp only [richGtLoop, richLtLoop]
      by_cases h1 : i < j
      · rw [if_pos h1, if_neg (by omega : ¬ j < i), if_pos h1]
      · by_cases h2 : j < i
        · rw [if_neg h1, if_pos h2, if_pos h2]
        · rw [if_neg h1, if_neg h2, if_neg h2, if_neg h1]
          by_cases h3 : v = w
          · subst h3
            rw [if_neg (fun h => h rfl), if_neg (fun h => h rfl)]
            exact ih tl2 L1 L2
          · rw [if_pos h3, if_pos (fun h => h3 h.symm)]

theorem richGtLoop_dense (fuel : Nat) {lo : Nat} {xs ys : List (Nat × Int)} (L : Nat)
    (hx : pairsOK lo xs) (hy : pairsOK lo ys)
    (bx : ∀ p ∈ xs, p.1 < lo + fuel) (hby : ∀ p ∈ ys, p.1 < lo + fuel) :
    richGtLoop xs ys L L = pyTupleLt (toDenseGo ys lo fuel) (toDenseGo xs lo fuel) := by
  rw [richGtLoop_eq_swap]
  exact richLtLoop_dense fuel L hy hx hby bx

/-- C1 counterexample: for lengths 2 and 1 the Py_GT branch disagrees with
    dense tuple comparison: the dense tuple (0, 0) is greater than (0,), but
    the sparse comparison returns false, because its final fallback compares
    the lengths with the same strict less-than as the Py_LT branch. -/
theorem etuple_richcmp_counterexample :
    ETuple.gt ⟨2, []⟩ ⟨1, []⟩ = false
    ∧ pyTupleLt (ETuple.toDense ⟨1, []⟩) (ETuple.toDense ⟨2, []⟩) = true
    ∧ ETuple.valid ⟨2, []⟩ ∧ ETuple.valid ⟨1, []⟩ := by decide

/-- C1 (amended): == agrees with dense tuple equality, <= / >= / != are the
    dense tuple comparisons themselves, and < and > agree with dense
    lexicographic comparison whenever the two lengths are equal (the
    counterexample shows the divergence of < and > for unequal lengths). -/
theorem etuple_richcmp_dense (a b : ETuple) (ha : a.valid) (hb : b.valid) :
    a.eqb b = decide (a.toDense = b.toDense)
    ∧ a.le b = pyTupleLe a.toDense b.toDense
    ∧ a.ge b = pyTupleLe b.toDense a.toDense
    ∧ a.neb b = decide (a.toDense ≠ b.toDense)
    ∧ (a.length = b.length →
        a.lt b = pyTupleLt a.toDense b.toDense ∧ a.gt b = pyTupleLt b.toDense a.toDense) := by
  refine ⟨?_, rfl, rfl, rfl, ?_⟩
  · rw [ETuple.eqb]
    rw [decide_eq_decide]
    constructor
    · intro h
      obtain ⟨h1, h2⟩ := h
      rw [ETuple.toDense, ETuple.toDense, h1, h2]
    · intro h
      have hlen : a.length = b.length := by
        have := congrArg List.length h
        rwa [ETuple.toDense, ETuple.toDense, toDenseGo_length, toDenseGo_length] at this
      refine ⟨?_, hlen⟩
      refine toDenseGo_inj a.length ha.1 hb.1 (by simpa using ha.2)
        (by simpa [hlen] using hb.2) ?_
      rw [ETuple.toDense, ETuple.toDense] at h
      rw [← hlen] at h
      exact h
  · intro hlen
    constructor
    · rw [ETuple.lt, ETuple.toDense, ETuple.toDense, ← hlen]
      exact richLtLoop_dense a.length a.length ha.1 hb.1
        (by simpa using ha.2) (by simpa [hlen] using hb.2)
    · rw [ETuple.gt, ETuple.toDense, ETuple.toDense, ← hlen]
      exact richGtLoop_dense a.length a.length ha.1 hb.1
        (by simpa using ha.2) (by simpa [hlen] using hb.2)

theorem etuple_richcmp_dense_witness :
    ETuple.lt ⟨3, [(0, 1), (1, 1)]⟩ ⟨3, [(1, 2)]⟩
      = pyTupleLt (ETuple.toDense ⟨3, [(0, 1), (1, 1)]⟩) (ETuple.toDense ⟨3, [(1, 2)]⟩)
    ∧ ETuple.eqb ⟨3, [(0, 1), (1, 1)]⟩ ⟨3, [(1, 2)]⟩
      = decide (ETuple.toDense ⟨3, [(0, 1), (1, 1)]⟩ = ETuple.toDense ⟨3, [(1, 2)]⟩) :=
  ⟨((etuple_richcmp_dense ⟨3, [(0, 1), (1, 1)]⟩ ⟨3, [(1, 2)]⟩
      (by decide) (by decide)).2.2.2.2 rfl).1,
    (etuple_richcmp_dense ⟨3, [(0, 1), (1, 1)]⟩ ⟨3, [(1, 2)]⟩ (by decide) (by decide)).1⟩

/-- C8: PolyDict multiplication short-circuits on an empty mapping: when the
    left operand has the empty mapping it is returned itself, and when only
    the right operand has the empty mapping that operand is returned itself
    (no fresh zero mapping is built in either case). -/
theorem polydict_mul_zero_shortcircuit (f g : PolyDict) :
    (f.repn = [] → f.mul g = .ok f) ∧ (g.repn = [] → f.repn ≠ [] → f.mul g = .ok g) := by
  constructor
  · intro h
    rw [PolyDict.mul, if_pos h]
  · intro hg hf
    rw [PolyDict.mul, if_neg hf, if_pos hg]

theorem polydict_mul_zero_shortcircuit_witness :
    PolyDict.mul ⟨[]⟩ ⟨[(⟨1, [(0, 1)]⟩, 3)]⟩ = .ok ⟨[]⟩
    ∧ PolyDict.mul ⟨[(⟨1, [(0, 1)]⟩, 3)]⟩ ⟨[]⟩ = .ok ⟨[]⟩ :=
  ⟨(polydict_mul_zero_shortcircuit ⟨[]⟩ ⟨[(⟨1, [(0, 1)]⟩, 3)]⟩).1 rfl,
    (polydict_mul_zero_shortcircuit ⟨[(⟨1, [(0, 1)]⟩, 3)]⟩ ⟨[]⟩).2 rfl (by simp)⟩

/- Claims about the flag engine. -/

namespace Flags

/-- C2: Flag.subflag with the points argument omitted (None) raises
    TypeError, because len(points) is evaluated before the None-default
    branch (dead code), while the claim and the source's own __le__ doctest
    expect it to default to all points; with an explicit full point set and
    the original type the structure itself is returned and is strong_equal
    to the original, and for a genuine subset the blocks are filtered to the
    contained tuples and relabelled to new 0-based indices. -/
theorem flag_subflag_default_points_bug :
    Flag.subflag edgeTwo none none = .error .typeError
    ∧ Flag.subflag edgeTwo (some [0, 1]) none = .ok edgeTwo
    ∧ Flag.strongEqual edgeTwo edgeTwo = true
    ∧ Flag.subflag triangleFlag (some [0, 1]) none = .ok edgeTwo :=
  ⟨rfl, rfl, rfl, rfl⟩

/-- C3: the untyped edge is ≤ the untyped triangle under induced inclusion,
    while the edge with type point 0 is not ≤ the untyped triangle (the
    ftype size never matches during the search, so every comparison is
    false). -/
theorem flag_le_triangle_cases :
    Flag.le edgeTwo triangleFlag = .ok true
    ∧ Flag.le pointedEdge triangleFlag = .ok false :=
  ⟨rfl, rfl⟩

/-- C4: possible_mergings at size 3 over the two isomorphism-distinct size-2
    graphs with the single symmetric binary relation returns exactly the
    four isomorphism-distinct size-3 graphs (empty triangle, one edge,
    cherry, full triangle), pairwise non-equal; passing the full triangle as
    an excluded structure removes exactly that isomorphism class, leaving
    the other three. -/
theorem possible_mergings_graphs_three :
    possibleMergings 3 [emptyTwo, edgeTwo] graphSignature []
      = .ok [emptyThree, oneEdgeThree, cherryFlag, triangleFlag]
    ∧ possibleMergings 3 [emptyTwo, edgeTwo] graphSignature [.flag triangleFlag]
      = .ok [emptyThree, oneEdgeThree, cherryFlag]
    ∧ Flag.eq emptyThree oneEdgeThree = .ok false
    ∧ Flag.eq emptyThree cherryFlag = .ok false
    ∧ Flag.eq emptyThree triangleFlag = .ok false
    ∧ Flag.eq oneEdgeThree cherryFlag = .ok false
    ∧ Flag.eq oneEdgeThree triangleFlag = .ok false
    ∧ Flag.eq cherryFlag triangleFlag = .ok false :=
  ⟨rfl, rfl, rfl, rfl, rfl, rfl, rfl, rfl⟩

/-- C9: Pattern.is_compatible raises KeyError instead of returning True for
    an unconstrained pattern against a compatible structure — the refinement
    check looks up the optional companion key of every relation, which
    neither the pattern nor the pattern built from the target structure can
    carry (the constructor standardizes with the pattern switch off, so such
    keys are rejected at construction); the incompatible-size fast path does
    return False without reaching the search. -/
theorem pattern_is_compatible_keyerror_bug :
    Pattern.isCompatible emptyPatternTwo emptyTwo = .error .keyError
    ∧ Pattern.isCompatible emptyPatternThree emptyTwo = .ok false :=
  ⟨rfl, rfl⟩

/-- C10: Flag.__hash__ is computed from the same unique() certificate
    component (canonical edge set with ftype size) that Flag.__eq__
    compares, so equal flags have equal hash values. -/
theorem flag_eq_implies_hash_eq (a b : Flag) (h : Flag.eq a b = .ok true) :
    a.hashValue = b.hashValue := by
  simp only [Flag.eq, Flag.normalEqual] at h
  by_cases ht : a.theory = b.theory
  · simp only [if_neg (not_not_intro ht)] at h
    by_cases hf : a.ftypePoints.length = b.ftypePoints.length
    · simp only [if_neg (not_not_intro hf)] at h
      cases hu : a.unique false with
      | error e =>
        rw [hu] at h
        simp [bind, Except.bind] at h
      | ok su =>
        cases hv : b.unique false with
        | error e =>
          rw [hu, hv] at h
          simp [bind, Except.bind] at h
        | ok ou =>
          rw [hu, hv] at h
          simp only [bind, Except.bind, pure, Except.pure, Except.ok.injEq] at h
          have hcert : su.1 = ou.1 := of_decide_eq_true h
          rw [Flag.hashValue, Flag.hashValue, hu, hv]
          simp only [bind, Except.bind, pure, Except.pure]
          rw [hcert]
    · rw [if_pos hf] at h
      simp at h
  · rw [if_pos ht] at h
    simp at h

theorem flag_eq_implies_hash_eq_witness :
    Flag.eq oneEdgeThree ⟨graphTheory, 3, [], [(edgesKey, [[0, 2]])]⟩ = .ok true
    ∧ Flag.hashValue oneEdgeThree
        = Flag.hashValue ⟨graphTheory, 3, [], [(edgesKey, [[0, 2]])]⟩ :=
  ⟨rfl, flag_eq_implies_hash_eq oneEdgeThree ⟨graphTheory, 3, [], [(edgesKey, [[0, 2]])]⟩ rfl⟩

end Flags
